import Mathlib

set_option maxRecDepth 1000000
set_option exponentiation.threshold 5000

/-!
# A verification model of the toon-go TOON codec

This file embeds, in Lean 4, the core of the `toon-go` repository: the
string-formatting and quoting rules (`internal/format`), the inline tokenizer
and unquoting (`internal/parse`), the value normalizer, the encoder, the
decoder/parser and the option plumbing (`internal/codec`), together with an
exact integer model of the IEEE-754 binary64 operations the Go code uses
(`strconv.ParseFloat` / `strconv.FormatFloat` with shortest rendering).

Conventions of the embedding:

* Strings are processed as `List Char` (`Str` below), matching Go's iteration
  over runes.  Go's occasional byte-indexed slicing always happens at rune
  boundaries in the functions modelled here, so char-indexed slicing agrees.
* Go's `unicode.IsLetter`/`unicode.IsDigit` are modelled by the ASCII
  predicates `Char.isAlpha`/`Char.isDigit`; every claim checked here stays in
  the ASCII range.  Likewise `strings.TrimSpace` is modelled over the ASCII
  whitespace set, which is what it does on ASCII input.
* Mutually recursive Go functions are embedded as single functions that are
  structurally recursive on an explicit fuel argument, so that every
  definition evaluates inside the kernel.  Fuel exhaustion is an `Except`
  error distinct from every error the Go code can produce.
* Go `float64` values are modelled exactly: a finite double is represented by
  its value scaled by `2 ^ 1074`, which is an integer for every finite
  binary64 value, making equality of doubles literal integer equality.
-/

namespace ToonGo

def exceptDecEq {ε α : Type} [DecidableEq ε] [DecidableEq α] :
    (a b : Except ε α) → Decidable (a = b)
  | .error e, .error f =>
    match decEq e f with
    | isTrue h => isTrue (by rw [h])
    | isFalse h => isFalse fun hh => h (by injection hh)
  | .error _, .ok _ => isFalse fun h => Except.noConfusion h
  | .ok _, .error _ => isFalse fun h => Except.noConfusion h
  | .ok a, .ok b =>
    match decEq a b with
    | isTrue h => isTrue (by rw [h])
    | isFalse h => isFalse fun hh => h (by injection hh)

instance {ε α : Type} [DecidableEq ε] [DecidableEq α] : DecidableEq (Except ε α) :=
  exceptDecEq

/-- Strings as lists of runes. -/
abbrev Str := List Char

/-- ASCII whitespace as classified by Go's `unicode.IsSpace` (the Latin-1
part: space, TAB, LF, VT, FF, CR). -/
def isGoSpace (c : Char) : Bool :=
  c = ' ' || c = '\t' || c = '\n' || c = '\x0b' || c = '\x0c' || c = '\r'

/-- `strings.TrimSpace`, restricted to ASCII whitespace. -/
def trimSpace (s : Str) : Str :=
  ((s.dropWhile isGoSpace).reverse.dropWhile isGoSpace).reverse

/-- Longest prefix of digits: returns its length and the remainder.
Mirrors the digit-scanning loops of `format.LooksNumeric`. -/
def spanDigits : Str → Nat × Str
  | [] => (0, [])
  | c :: r =>
    if c.isDigit then
      let p := spanDigits r
      (p.1 + 1, p.2)
    else (0, c :: r)

/-- Exponent part of `format.LooksNumeric`: the input is what follows the
`e`/`E`; an optional sign, then one or more digits ending the string. -/
def looksNumericExp (l : Str) : Bool :=
  let l2 := match l with
    | c :: r => if c = '+' || c = '-' then r else c :: r
    | [] => []
  let p := spanDigits l2
  p.1 != 0 && p.2.isEmpty

/-- What may legally follow the integer digits in `format.LooksNumeric`:
nothing, a fraction (then optionally an exponent), or an exponent. -/
def looksNumericTail : Str → Bool
  | [] => true
  | '.' :: r =>
    let p := spanDigits r
    p.1 != 0 &&
      (match p.2 with
       | [] => true
       | 'e' :: t => looksNumericExp t
       | 'E' :: t => looksNumericExp t
       | _ => false)
  | 'e' :: t => looksNumericExp t
  | 'E' :: t => looksNumericExp t
  | _ => false

/-- `format.LooksNumeric`: optional `-`, one or more digits, optional
fraction, optional exponent. -/
def looksNumeric (s : Str) : Bool :=
  match s with
  | [] => false
  | '-' :: r =>
    let p := spanDigits r
    p.1 != 0 && looksNumericTail p.2
  | l =>
    let p := spanDigits l
    p.1 != 0 && looksNumericTail p.2

/-- `format.HasLeadingZeroDecimal`: a `0` followed by another digit. -/
def hasLeadingZeroDecimal : Str → Bool
  | '0' :: c :: _ => c.isDigit
  | _ => false

/-- `format.IsValidUnquotedKey`: `(letter|_)(letter|digit|_|.)*`
(`unicode.IsLetter`/`IsDigit` modelled over ASCII). -/
def isValidUnquotedKeyRest : Str → Bool
  | [] => true
  | c :: r => (c.isAlpha || c.isDigit || c = '_' || c = '.') && isValidUnquotedKeyRest r

def isValidUnquotedKey : Str → Bool
  | [] => false
  | c :: r => (c = '_' || c.isAlpha) && isValidUnquotedKeyRest r

/-- `format.ValidateCharacters`: no control characters other than LF, CR,
HTAB. -/
def validateCharacters (s : Str) : Bool :=
  s.all fun c => decide (0x20 ≤ c.toNat) || c = '\n' || c = '\r' || c = '\t'

/-- Body of `format.QuoteString`: escape one character.  The Go code rejects
any other control code point; the hex code of the offending character is left
out of the modelled message. -/
def quoteChar (c : Char) : Except String Str :=
  if c = '\\' then .ok ['\\', '\\']
  else if c = '"' then .ok ['\\', '"']
  else if c = '\n' then .ok ['\\', 'n']
  else if c = '\r' then .ok ['\\', 'r']
  else if c = '\t' then .ok ['\\', 't']
  else if c.toNat < 0x20 then .error "toon: unsupported control character in string"
  else .ok [c]

def quoteBody : Str → Except String Str
  | [] => .ok []
  | c :: r => do
    let e ← quoteChar c
    let rest ← quoteBody r
    .ok (e ++ rest)

/-- `format.QuoteString`: escape and wrap in double quotes. -/
def quoteString (s : Str) : Except String Str := do
  let b ← quoteBody s
  .ok ('"' :: b ++ ['"'])

/-- Delimiter context for quoting decisions (`format.Context`). -/
structure FmtCtx where
  active : Char
  document : Char
  inArray : Bool

/-- `format.NeedsQuoting`. -/
def needsQuoting (s : Str) (ctx : FmtCtx) : Bool :=
  if s.isEmpty then true
  else if trimSpace s ≠ s then true
  else if s = "true".data || s = "false".data || s = "null".data then true
  else if looksNumeric s then true
  else if hasLeadingZeroDecimal s then true
  else if s.any (fun c => c = ':' || c = '\\' || c = '"' || c = '[' || c = ']' ||
                          c = '\x7b' || c = '\x7d') then true
  else if s.contains '\n' || s.contains '\r' || s.contains '\t' then true
  else if (match s with | '-' :: _ => true | _ => false) then true
  else if ctx.inArray && ctx.active.toNat != 0 && s.contains ctx.active then true
  else if !ctx.inArray && ctx.document.toNat != 0 && s.contains ctx.document then true
  else false

/-- `format.FormatString`: validate, then quote when needed. -/
def formatString (s : Str) (ctx : FmtCtx) : Except String Str :=
  if !validateCharacters s then
    .error "toon: unsupported control character in string"
  else if needsQuoting s ctx then quoteString s
  else .ok s

/-- `format.EncodeKey`. -/
def encodeKeyRaw (key : Str) : Except String Str :=
  if key.isEmpty then quoteString key
  else if isValidUnquotedKey key then .ok key
  else quoteString key

end ToonGo

namespace ToonGo

/-! ## Exact model of the binary64 operations used by the Go code

`strconv.ParseFloat(s, 64)` and `strconv.FormatFloat(f, 'f', -1, 64)` are
modelled exactly over the integers.  A finite double is stored as its value
multiplied by `2 ^ 1074` (every finite binary64 value is an integer multiple
of `2 ^ -1074`), so equality of doubles is integer equality and negative zero
coincides with zero (the Go call sites fold `-0` to `0` anyway).
The modelled textual domain of `ParseFloat` is the ordinary decimal grammar
plus `inf`/`infinity`/`nan`; Go additionally accepts hexadecimal floats and
digit-separating underscores, which no value in this development exercises. -/

/-- `2 ^ 1074` as a scaling constant. -/
def f64Scale : Nat := 2 ^ 1074

/-- Scaled representation bound for overflow: values of magnitude
`≥ 2 ^ 1024` are out of range for binary64. -/
def f64Lim : Nat := 2 ^ (1024 + 1074)

/-- Structural base-2 logarithm (floor); the fuel covers every value below
`2 ^ 4000`. -/
def natLog2Aux : Nat → Nat → Nat
  | 0, _ => 0
  | fuel + 1, n => if n < 2 then 0 else natLog2Aux fuel (n / 2) + 1

def natLog2 (n : Nat) : Nat := natLog2Aux 4000 n

/-- Round `n / d` to the nearest integer, ties to even. -/
def roundHalfEven (n d : Nat) : Nat :=
  let u := n / d
  let r := n % d
  if 2 * r < d then u
  else if d < 2 * r then u + 1
  else if u % 2 = 0 then u else u + 1

/-- Is `a / b ≥ 2 ^ m` (for `b ≠ 0`)? -/
def cmpGePow2 (a b : Nat) (m : Int) : Bool :=
  if 0 ≤ m then b * 2 ^ m.toNat ≤ a else b ≤ a * 2 ^ (-m).toNat

/-- Correctly round the positive rational `a / b` (with `b ≠ 0`) to the
nearest binary64 value, ties to even, returning the scaled result;
`none` models `strconv.ErrRange` (overflow, or underflow of a non-zero
value to zero). -/
def roundFloatPos (a b : Nat) : Option Nat :=
  if a = 0 then some 0 else
  let e0 : Int := (natLog2 a : Int) - (natLog2 b : Int)
  let e : Int := if cmpGePow2 a b e0 then e0 else e0 - 1
  let q : Int := max (e - 52) (-1074)
  let n' := if q ≤ 0 then a * 2 ^ (-q).toNat else a
  let d' := if q ≤ 0 then b else b * 2 ^ q.toNat
  let m := roundHalfEven n' d'
  if m = 0 then none
  else
    let scaled := m * 2 ^ (q + 1074).toNat
    if f64Lim ≤ scaled then none else some scaled

/-- Result of the modelled `strconv.ParseFloat`. -/
inductive GoFloat
  | finite (scaled : Int)
  | inf (neg : Bool)
  | nan
deriving DecidableEq

def digitVal (c : Char) : Nat := c.toNat - 48

/-- Numeric value of a digit string (the scanning loops of `ParseFloat` and
`strconv.Atoi`). -/
def digitsVal (s : Str) : Nat :=
  s.foldl (fun acc c => acc * 10 + digitVal c) 0

/-- Split off a maximal run of digits. -/
def takeDigits : Str → Str × Str
  | [] => ([], [])
  | c :: r =>
    if c.isDigit then
      let p := takeDigits r
      (c :: p.1, p.2)
    else ([], c :: r)

/-- Exponent suffix: optional sign, one or more digits, end of string. -/
def parseDecExp (l : Str) : Option Int :=
  match l with
  | '+' :: r =>
    let p := takeDigits r
    if p.1.isEmpty || !p.2.isEmpty then none else some (digitsVal p.1 : Int)
  | '-' :: r =>
    let p := takeDigits r
    if p.1.isEmpty || !p.2.isEmpty then none else some (-(digitsVal p.1 : Int))
  | r =>
    let p := takeDigits r
    if p.1.isEmpty || !p.2.isEmpty then none else some (digitsVal p.1 : Int)

/-- Parse the decimal grammar `digits* [. digits*] [(e|E) [+|-] digits]`
(at least one mantissa digit): mantissa digits value and decimal exponent. -/
def parseDecCore (s : Str) : Option (Nat × Int) :=
  let ip := takeDigits s
  let intDigits := ip.1
  match ip.2 with
  | '.' :: r =>
    let fp := takeDigits r
    if intDigits.isEmpty && fp.1.isEmpty then none
    else
      let mant := digitsVal (intDigits ++ fp.1)
      let fracLen : Int := fp.1.length
      match fp.2 with
      | [] => some (mant, -fracLen)
      | 'e' :: t => (parseDecExp t).map fun ex => (mant, ex - fracLen)
      | 'E' :: t => (parseDecExp t).map fun ex => (mant, ex - fracLen)
      | _ => none
  | 'e' :: t =>
    if intDigits.isEmpty then none
    else (parseDecExp t).map fun ex => (digitsVal intDigits, ex)
  | 'E' :: t =>
    if intDigits.isEmpty then none
    else (parseDecExp t).map fun ex => (digitsVal intDigits, ex)
  | [] =>
    if intDigits.isEmpty then none else some (digitsVal intDigits, 0)
  | _ => none


def asciiLower (c : Char) : Char :=
  if 'A' ≤ c && c ≤ 'Z' then Char.ofNat (c.toNat + 32) else c

/-- The special values recognised case-insensitively by `ParseFloat`. -/
def parseSpecial (l : Str) (neg : Bool) : Option GoFloat :=
  let low := l.map asciiLower
  if low = "inf".data || low = "infinity".data then some (.inf neg)
  else if low = "nan".data then some .nan
  else none

/-- Modelled `strconv.ParseFloat(s, 64)`: `.error ()` captures every case in
which Go reports a non-nil error (syntax errors and `ErrRange`). -/
def goParseFloat (s : Str) : Except Unit GoFloat :=
  let (neg, body) := match s with
    | '-' :: r => (true, r)
    | '+' :: r => (false, r)
    | r => (false, r)
  match parseSpecial body neg with
  | some g => .ok g
  | none =>
    match parseDecCore body with
    | none => .error ()
    | some (mant, dexp) =>
      if mant = 0 then .ok (.finite 0)
      else
        let a := if 0 ≤ dexp then mant * 10 ^ dexp.toNat else mant
        let b := if 0 ≤ dexp then 1 else 10 ^ (-dexp).toNat
        match roundFloatPos a b with
        | none => .error ()
        | some scaled => .ok (.finite (if neg then -(scaled : Int) else (scaled : Int)))

/-- Decimal digit characters of a natural number (helper fuel recursion; the
fuel `800` covers every number below `10 ^ 800`, far beyond the binary64
range). -/
def natDecAux : Nat → Nat → Str
  | 0, _ => []
  | _, 0 => []
  | fuel + 1, n => natDecAux fuel (n / 10) ++ [Char.ofNat (48 + n % 10)]

def natDecimal (n : Nat) : Str :=
  if n = 0 then ['0'] else natDecAux 800 n

def intDecimal (i : Int) : Str :=
  if i < 0 then '-' :: natDecimal i.natAbs else natDecimal i.toNat

/-- Number of decimal digits (same fuel bound). -/
def digitCountAux : Nat → Nat → Nat
  | 0, _ => 0
  | fuel + 1, n => if n < 10 then 1 else digitCountAux fuel (n / 10) + 1

def digitCount (n : Nat) : Nat := digitCountAux 800 n

/-- Smallest `j ≥ 1` with `v * 10 ^ j ≥ 1` for `0 < v < 1`
(`v = sv / 2 ^ 1074`); fuel-bounded scan. -/
def decExpSmallAux (sv : Nat) : Nat → Nat → Nat
  | 0, j => j
  | fuel + 1, j => if f64Scale ≤ sv * 10 ^ j then j else decExpSmallAux sv fuel (j + 1)

/-- Decimal exponent `d` of a positive scaled value: `10^(d-1) ≤ v < 10^d`. -/
def decExpOf (sv : Nat) : Int :=
  if f64Scale ≤ sv then (digitCount (sv / f64Scale) : Int)
  else 1 - (decExpSmallAux sv 1100 1 : Int)

/-- The candidate significand of `v` rounded to `p` significant decimal
digits: `round(v * 10 ^ (p - d))`, ties to even. -/
def fmtCandidate (sv : Nat) (scale : Int) : Nat :=
  if 0 ≤ scale then roundHalfEven (sv * 10 ^ scale.toNat) f64Scale
  else roundHalfEven sv (f64Scale * 10 ^ (-scale).toNat)

/-- Does the candidate `c * 10 ^ -scale` parse back to exactly `sv`? -/
def fmtCheck (sv : Nat) (c : Nat) (scale : Int) : Bool :=
  let r :=
    if scale ≤ 0 then roundFloatPos (c * 10 ^ (-scale).toNat) 1
    else roundFloatPos c (10 ^ scale.toNat)
  r = some sv

/-- Fixed-notation rendering of `c * 10 ^ -scale` (`%f` with exactly the
chosen digits). -/
def fmtRender (c : Nat) (scale : Int) : Str :=
  if scale ≤ 0 then natDecimal (c * 10 ^ (-scale).toNat)
  else
    let s := scale.toNat
    let ip := c / 10 ^ s
    let fr := natDecimal (c % 10 ^ s)
    natDecimal ip ++ ['.'] ++ (List.replicate (s - fr.length) '0' ++ fr)

/-- Search for the smallest precision whose rounded decimal parses back to
the same double; Go's shortest (`prec = -1`) rendering always succeeds by
17 digits, which the fuel mirrors. -/
def fmtSearch (sv : Nat) (d : Int) (p : Nat) : Nat → Str
  | 0 => fmtRender (fmtCandidate sv ((p : Int) - d)) ((p : Int) - d)
  | fuel + 1 =>
    let scale := (p : Int) - d
    let c := fmtCandidate sv scale
    if fmtCheck sv c scale then fmtRender c scale
    else fmtSearch sv d (p + 1) fuel

/-- Modelled `strconv.FormatFloat(f, 'f', -1, 64)` on a finite double. -/
def goFormatFloat (scaled : Int) : Str :=
  if scaled = 0 then ['0']
  else
    let sv := scaled.natAbs
    let core := fmtSearch sv (decExpOf sv) 1 16
    if scaled < 0 then '-' :: core else core

/-- Convenience: the scaled double equal to the integer `n`. -/
def f64OfNat (n : Nat) : Int := (n : Int) * (f64Scale : Int)

end ToonGo

namespace ToonGo

/-! ## Data model, options and normalizer (`internal/codec`) -/

/-- Go `codec.Delimiter` (a rune). -/
abbrev Delimiter := Char

def DelimiterComma : Delimiter := ','
def DelimiterTab : Delimiter := '\t'
def DelimiterPipe : Delimiter := '|'

/-- `Delimiter.rune()`: unknown delimiters fall back to the comma. -/
def delimRune (d : Delimiter) : Char :=
  if d = DelimiterComma then ','
  else if d = DelimiterTab then '\t'
  else if d = DelimiterPipe then '|'
  else ','

/-- `codec.encoderOptions`.  The time formatter is carried abstractly
(`none` = the RFC 3339 default); no claim exercises it. -/
structure encoderOptions where
  indentSize : Int
  documentDelimiter : Delimiter
  arrayDelimiter : Delimiter
  includeLengthMarks : Bool
  timeFormatter : Option (Nat → Str)

def defaultEncoderOptions : encoderOptions :=
  { indentSize := 2
    documentDelimiter := DelimiterComma
    arrayDelimiter := DelimiterComma
    includeLengthMarks := false
    timeFormatter := none }

/-- The encoder option constructors of `codec/options.go`. -/
inductive EncoderOption
  | withIndent (spaces : Int)
  | withDocumentDelimiter (delimiter : Delimiter)
  | withArrayDelimiter (delimiter : Delimiter)
  | withLengthMarkers (enabled : Bool)
  | withTimeFormatter (formatter : Option (Nat → Str))

def applyEncoderOption (o : encoderOptions) : EncoderOption → encoderOptions
  | .withIndent spaces =>
    if 0 < spaces then { o with indentSize := spaces } else o
  | .withDocumentDelimiter d =>
    if d = DelimiterComma || d = DelimiterTab || d = DelimiterPipe then
      { o with documentDelimiter := d }
    else o
  | .withArrayDelimiter d =>
    if d = DelimiterComma || d = DelimiterTab || d = DelimiterPipe then
      { o with arrayDelimiter := d }
    else o
  | .withLengthMarkers enabled => { o with includeLengthMarks := enabled }
  | .withTimeFormatter f =>
    match f with
    | some fn => { o with timeFormatter := some fn }
    | none => o

/-- `codec.NewEncoder`: fold the options over the defaults. -/
def newEncoderConfig (opts : List EncoderOption) : encoderOptions :=
  opts.foldl applyEncoderOption defaultEncoderOptions

/-- `codec.decoderOptions`. -/
structure decoderOptions where
  indentSize : Int
  strict : Bool
  documentDelim : Delimiter
deriving DecidableEq

def defaultDecoderOptions : decoderOptions :=
  { indentSize := 2, strict := true, documentDelim := DelimiterComma }

inductive DecoderOption
  | withStrictMode (strict : Bool)
  | withDecoderIndent (spaces : Int)
  | withDecoderDocumentDelimiter (delimiter : Delimiter)
deriving DecidableEq

def applyDecoderOption (o : decoderOptions) : DecoderOption → decoderOptions
  | .withStrictMode strict => { o with strict := strict }
  | .withDecoderIndent spaces =>
    if 0 < spaces then { o with indentSize := spaces } else o
  | .withDecoderDocumentDelimiter d =>
    if d = DelimiterComma || d = DelimiterTab || d = DelimiterPipe then
      { o with documentDelim := d }
    else o

/-- `codec.NewDecoder`: fold the options over the defaults. -/
def newDecoderConfig (opts : List DecoderOption) : decoderOptions :=
  opts.foldl applyDecoderOption defaultDecoderOptions

/-- The normalized TOON data model (`codec.normalizedValue`): `vnum` is
`codec.numberValue` (a literal rendered verbatim); `vobj` is `codec.Object`
(its entries are the ordered `Field` list, key then value). -/
inductive Value
  | vnull
  | vbool (b : Bool)
  | vnum (literal : Str)
  | vstr (s : Str)
  | vobj (fields : List (Str × Value))
  | varr (items : List Value)

/-- `codec.maxSafeInteger`. -/
def maxSafeInteger : Int := 9007199254740991

/-- `codec.normalizeNumberString` (the `json.Number` path of `normalize`):
re-parse and re-render; parse errors keep the string, non-finite results
become null.  The Go `if f == 0 { f = 0 }` fold of `-0` is the identity in
the scaled model. -/
def normalizeNumberString (s : Str) : Value :=
  match goParseFloat s with
  | .error _ => .vstr s
  | .ok (.inf _) => .vnull
  | .ok .nan => .vnull
  | .ok (.finite v) => .vnum (goFormatFloat v)

/-- `codec.normalizeFloat`. -/
def normalizeFloat (f : GoFloat) : Value :=
  match f with
  | .nan => .vnull
  | .inf _ => .vnull
  | .finite v => .vnum (goFormatFloat v)

/-- Host values accepted by `codec.normalize`, by Go kind.  The reflection
paths (`time.Time`, `fmt.Stringer`, struct binding, pointers) are outside
the modelled domain; the remaining kinds cover the data model. -/
inductive HostValue
  | hnull
  | hbool (b : Bool)
  | hstr (s : Str)
  | hjsonNumber (s : Str)
  | hfloat (f : GoFloat)
  | hint (i : Int)
  | huint (u : Nat)
  | hbigInt (i : Int)
  | hobj (fields : List (Str × HostValue))
  | harr (items : List HostValue)
  | hmap (entries : List (Str × HostValue))

/-- Byte-lexicographic `<` on keys (Go string comparison; on UTF-8 this is
code-point order, which the `Char` order matches). -/
def keyLt : Str → Str → Bool
  | [], [] => false
  | [], _ :: _ => true
  | _ :: _, [] => false
  | c :: r, d :: t => if c < d then true else if d < c then false else keyLt r t

/-- Insertion sort by ascending key, modelling `slices.SortFunc` on the field
list.  Map keys are pairwise distinct, for which every comparison sort
produces this unique sorted arrangement. -/
def insSortField (f : Str × Value) : List (Str × Value) → List (Str × Value)
  | [] => [f]
  | g :: r => if keyLt f.1 g.1 then f :: g :: r else g :: insSortField f r

def sortFields : List (Str × Value) → List (Str × Value)
  | [] => []
  | f :: r => insSortField f (sortFields r)

/-- `codec.normalize`, as a single function structurally recursive on fuel
(so that it evaluates in the kernel).  The loops of `normalizeObjectFields`
and of the slice/map cases are expressed as self-recursion on the tail of the
same constructor. -/
def normalizeRun : Nat → HostValue → Except String Value
  | 0, _ => .error "model: out of fuel"
  | _ + 1, .hnull => .ok .vnull
  | _ + 1, .hbool b => .ok (.vbool b)
  | _ + 1, .hstr s => .ok (.vstr s)
  | _ + 1, .hjsonNumber s => .ok (normalizeNumberString s)
  | _ + 1, .hfloat f => .ok (normalizeFloat f)
  | _ + 1, .hint i =>
    if maxSafeInteger < i || i < -maxSafeInteger then .ok (.vstr (intDecimal i))
    else .ok (.vnum (intDecimal i))
  | _ + 1, .huint u =>
    if maxSafeInteger < (u : Int) then .ok (.vstr (natDecimal u))
    else .ok (.vnum (natDecimal u))
  | fuel + 1, .hbigInt i =>
    if -(2 ^ 63) ≤ i && i < 2 ^ 63 then normalizeRun fuel (.hint i)
    else .ok (.vstr (intDecimal i))
  | _ + 1, .hobj [] => .ok (.vobj [])
  | fuel + 1, .hobj ((k, v) :: rest) => do
    let nv ← normalizeRun fuel v
    let nr ← normalizeRun fuel (.hobj rest)
    match nr with
    | .vobj nrf => .ok (.vobj ((k, nv) :: nrf))
    | _ => .error "model: impossible"
  | _ + 1, .harr [] => .ok (.varr [])
  | fuel + 1, .harr (v :: rest) => do
    let nv ← normalizeRun fuel v
    let nr ← normalizeRun fuel (.harr rest)
    match nr with
    | .varr nri => .ok (.varr (nv :: nri))
    | _ => .error "model: impossible"
  | fuel + 1, .hmap entries => do
    let nf ← normalizeRun fuel (.hobj entries)
    match nf with
    | .vobj fields => .ok (.vobj (sortFields fields))
    | _ => .error "model: impossible"

end ToonGo

namespace ToonGo

/-! ## Encoder (`codec/encoder.go`)

The Go encoder appends lines to mutable state; here every function returns
the list of lines it emits.  The `formatContext` threaded through the Go
functions always equals one of two values derived from the configuration
(`inArray` true inside array scopes, false elsewhere, with `active` the
configured array delimiter and `document` the document delimiter), so it is
reconstructed from the configuration at each use. -/

def fmtCtxDoc (cfg : encoderOptions) : FmtCtx :=
  ⟨delimRune cfg.arrayDelimiter, delimRune cfg.documentDelimiter, false⟩

def fmtCtxArr (cfg : encoderOptions) : FmtCtx :=
  ⟨delimRune cfg.arrayDelimiter, delimRune cfg.documentDelimiter, true⟩

/-- `codec.formatPrimitive`. -/
def formatPrimitive (v : Value) (ctx : FmtCtx) : Except String Str :=
  match v with
  | .vnull => .ok "null".data
  | .vbool true => .ok "true".data
  | .vbool false => .ok "false".data
  | .vstr s => formatString s ctx
  | .vnum lit => .ok lit
  | _ => .error "toon: unsupported primitive"

/-- `codec.isPrimitive`. -/
def isPrimitive : Value → Bool
  | .vnull | .vbool _ | .vstr _ | .vnum _ => true
  | _ => false

/-- `codec.isPrimitiveArray`. -/
def isPrimitiveArray (values : List Value) : Bool :=
  values.all isPrimitive

/-- `codec.objField`: first field with the key; `nil` when absent. -/
def objField (fields : List (Str × Value)) (key : Str) : Value :=
  match fields with
  | [] => .vnull
  | (k, v) :: rest => if k = key then v else objField rest key

/-- The per-row check of `codec.detectTabular` for elements after the first:
an object with as many fields as the header, every key in the header's field
set with a primitive value, and as many distinct keys as header fields. -/
def rowCheck (fields : List Str) : Value → Bool
  | .vobj o =>
    o.length == fields.length &&
    o.all (fun f => fields.contains f.1 && isPrimitive f.2) &&
    (o.map Prod.fst).dedup.length == fields.length
  | _ => false

/-- `codec.detectTabular`. -/
def detectTabular (values : List Value) : Option (List Str) :=
  match values with
  | [] => none
  | first :: rest =>
    match first with
    | .vobj fs =>
      if fs.isEmpty then none
      else if fs.all (fun f => isPrimitive f.2) then
        let fields := fs.map Prod.fst
        if rest.all (rowCheck fields) then some fields else none
      else none
    | _ => none

/-- `strings.Join` with a one-character separator. -/
def joinWith (sep : Char) : List Str → Str
  | [] => []
  | [x] => x
  | x :: r => x ++ sep :: joinWith sep r

/-- `encodeState.indent`. -/
def indentStr (cfg : encoderOptions) (depth : Nat) : Str :=
  List.replicate (depth * cfg.indentSize.toNat) ' '

def exceptGetD (e : Except String Str) (d : Str) : Str :=
  match e with
  | .ok v => v
  | .error _ => d

/-- `codec.renderHeader`; the field literals drop the error of `encodeKey`
exactly as the Go code does (`fieldLiteral, _ := encodeKey(field)`). -/
def renderHeader (keyLit : Str) (length : Nat) (delim : Delimiter)
    (marker : Bool) (fields : List Str) : Str :=
  keyLit ++ ['['] ++ (if marker then ['#'] else []) ++ natDecimal length ++
  (if delim ≠ DelimiterComma then [delimRune delim] else []) ++ [']'] ++
  (if fields.length > 0 then
    ['\x7b'] ++
      joinWith (delimRune delim) (fields.map fun f => exceptGetD (encodeKeyRaw f) []) ++
    ['\x7d']
  else []) ++ [':']

/-- One tabular data row: the header fields formatted from the row object. -/
def rowTokens (cfg : encoderOptions) (o : List (Str × Value)) :
    List Str → Except String (List Str)
  | [] => .ok []
  | f :: rest => do
    let tok ← formatPrimitive (objField o f) (fmtCtxArr cfg)
    let more ← rowTokens cfg o rest
    .ok (tok :: more)

/-- The tabular row-emission loops of `encodeArray` and
`encodeArrayForObjectListItem` (`depth` is the row depth). -/
def tabularRows (cfg : encoderOptions) (fields : List Str) (depth : Nat) :
    List Value → Except String (List Str)
  | [] => .ok []
  | row :: rest =>
    match row with
    | .vobj o => do
      let toks ← rowTokens cfg o fields
      let more ← tabularRows cfg fields depth rest
      .ok ((indentStr cfg depth ++ joinWith (delimRune cfg.arrayDelimiter) toks) :: more)
    | _ => .error "model: tabular row type assertion"

/-- The inline token list of a primitive array. -/
def inlineTokens (cfg : encoderOptions) : List Value → Except String (List Str)
  | [] => .ok []
  | v :: rest => do
    let tok ← formatPrimitive v (fmtCtxArr cfg)
    let more ← inlineTokens cfg rest
    .ok (tok :: more)

/-- The mutually recursive encoder procedures, as one fuel-indexed machine:
`eobj` is `encodeObject` (its field loop recursing on the tail), `earr` is
`encodeArray`, `eitem` is `encodeArrayItem`/`encodeListItem` (identical
bodies), `eobjItem` is `encodeObjectListItem`, `earrFor` is
`encodeArrayForObjectListItem`, and `earrLoop`/`earrForLoop` are the
element loops of the object-list layouts. -/
inductive ECall
  | eobj (fields : List (Str × Value)) (depth : Nat)
  | earr (key : Str) (values : List Value) (depth : Nat) (root : Bool)
  | earrLoop (values : List Value) (depth : Nat) (root : Bool)
  | eitem (item : Value) (depth : Nat) (root : Bool)
  | eobjItem (fields : List (Str × Value)) (depth : Nat)
  | earrFor (keyLit : Str) (values : List Value) (depth : Nat)

def encRun (cfg : encoderOptions) : Nat → ECall → Except String (List Str)
  | 0, _ => .error "model: out of fuel"
  | _ + 1, .eobj [] _ => .ok []
  | fuel + 1, .eobj ((k, v) :: rest) depth =>
    if isPrimitive v then do
      let keyLit ← encodeKeyRaw k
      let tok ← formatPrimitive v (fmtCtxDoc cfg)
      let more ← encRun cfg fuel (.eobj rest depth)
      .ok ((indentStr cfg depth ++ keyLit ++ ':' :: ' ' :: tok) :: more)
    else
      match v with
      | .vobj sub => do
        let keyLit ← encodeKeyRaw k
        let subL ← encRun cfg fuel (.eobj sub (depth + 1))
        let more ← encRun cfg fuel (.eobj rest depth)
        .ok ((indentStr cfg depth ++ keyLit ++ [':']) :: subL ++ more)
      | .varr items => do
        let arrL ← encRun cfg fuel (.earr k items depth false)
        let more ← encRun cfg fuel (.eobj rest depth)
        .ok (arrL ++ more)
      | _ => .error "toon: unsupported object field"
  | fuel + 1, .earr key values depth root => do
    let keyLit ← if key.isEmpty then pure [] else encodeKeyRaw key
    if isPrimitiveArray values then do
      let header := renderHeader keyLit values.length cfg.arrayDelimiter
        cfg.includeLengthMarks []
      let toks ← inlineTokens cfg values
      let line := indentStr cfg depth ++ header ++
        (if values.length > 0 then ' ' :: joinWith (delimRune cfg.arrayDelimiter) toks
         else [])
      .ok [line]
    else
      match detectTabular values with
      | some fields => do
        let header := renderHeader keyLit values.length cfg.arrayDelimiter
          cfg.includeLengthMarks fields
        let rows ← tabularRows cfg fields (depth + 1) values
        .ok ((indentStr cfg depth ++ header) :: rows)
      | none => do
        let header := renderHeader keyLit values.length cfg.arrayDelimiter
          cfg.includeLengthMarks []
        let items ← encRun cfg fuel (.earrLoop values (depth + 1) root)
        .ok ((indentStr cfg depth ++ header) :: items)
  | _ + 1, .earrLoop [] _ _ => .ok []
  | fuel + 1, .earrLoop (item :: rest) depth root => do
    let first ← encRun cfg fuel (.eitem item depth root)
    let more ← encRun cfg fuel (.earrLoop rest depth root)
    .ok (first ++ more)
  | fuel + 1, .eitem item depth _root =>
    if isPrimitive item then do
      let tok ← formatPrimitive item (fmtCtxArr cfg)
      .ok [indentStr cfg depth ++ '-' :: ' ' :: tok]
    else
      match item with
      | .vobj o => encRun cfg fuel (.eobjItem o depth)
      | .varr items => encRun cfg fuel (.earrFor [] items depth)
      | _ => .error "toon: unsupported array item"
  | _ + 1, .eobjItem [] depth => .ok [indentStr cfg depth ++ "- \x7b\x7d".data]
  | fuel + 1, .eobjItem ((k, v) :: rest) depth =>
    if isPrimitive v then do
      let keyLit ← encodeKeyRaw k
      let tok ← formatPrimitive v (fmtCtxArr cfg)
      let line := indentStr cfg depth ++ '-' :: ' ' :: keyLit ++ ':' :: ' ' :: tok
      if rest.length > 0 then do
        let more ← encRun cfg fuel (.eobj rest (depth + 1))
        .ok (line :: more)
      else .ok [line]
    else
      match v with
      | .varr arr => do
        let keyLit ← encodeKeyRaw k
        let arrL ← encRun cfg fuel (.earrFor keyLit arr depth)
        if rest.length > 0 then do
          let more ← encRun cfg fuel (.eobj rest (depth + 1))
          .ok (arrL ++ more)
        else .ok arrL
      | _ => do
        let subL ← encRun cfg fuel (.eobj ((k, v) :: rest) (depth + 1))
        .ok ((indentStr cfg depth ++ ['-']) :: subL)
  | fuel + 1, .earrFor keyLit values depth =>
    match detectTabular values with
    | some fields => do
      let header := renderHeader keyLit values.length cfg.arrayDelimiter
        cfg.includeLengthMarks fields
      let rows ← tabularRows cfg fields (depth + 1) values
      .ok ((indentStr cfg depth ++ '-' :: ' ' :: header) :: rows)
    | none =>
      if isPrimitiveArray values then do
        let header := renderHeader keyLit values.length cfg.arrayDelimiter
          cfg.includeLengthMarks []
        let toks ← inlineTokens cfg values
        let line := indentStr cfg depth ++ '-' :: ' ' :: header ++
          (if values.length > 0 then
            ' ' :: joinWith (delimRune cfg.arrayDelimiter) toks
           else [])
        .ok [line]
      else do
        let header := renderHeader keyLit values.length cfg.arrayDelimiter
          cfg.includeLengthMarks []
        let items ← encRun cfg fuel (.earrLoop values (depth + 1) true)
        .ok ((indentStr cfg depth ++ '-' :: ' ' :: header) :: items)

/-- Fuel for the top-level entry points.  Fuel is consumed lazily, one unit
per machine step, so a large constant costs nothing; exhaustion yields the
explicit model error, never a wrong answer, and no value in this development
comes near the bound. -/
def modelFuel : Nat := 1000000

/-- `encodeState.encodeRoot`. -/
def encodeRootRun (cfg : encoderOptions) (v : Value) : Except String (List Str) :=
  if isPrimitive v then do
    let tok ← formatPrimitive v (fmtCtxDoc cfg)
    .ok [tok]
  else
    match v with
    | .vobj o => encRun cfg modelFuel (.eobj o 0)
    | .varr items => encRun cfg modelFuel (.earr [] items 0 true)
    | _ => .error "toon: unsupported root value"

/-- `Encoder.Marshal` on an already-normalized value: encode and join with
LF (no trailing newline). -/
def marshalValue (cfg : encoderOptions) (v : Value) : Except String Str :=
  (encodeRootRun cfg v).map (joinWith '\n')

/-- `Encoder.Marshal`: normalize, then encode. -/
def marshal (cfg : encoderOptions) (h : HostValue) : Except String Str := do
  let v ← normalizeRun modelFuel h
  marshalValue cfg v

end ToonGo

namespace ToonGo

/-! ## Inline tokenizer and unquoting (`internal/parse`) -/

/-- Interior of `parse.UnquoteString`: process escapes; a trailing backslash
is an unterminated escape. -/
def unquoteAux : Bool → Str → Except String Str
  | false, [] => .ok []
  | true, [] => .error "unterminated escape sequence"
  | true, c :: r =>
    if c = '\\' || c = '"' then do
      let rest ← unquoteAux false r
      .ok (c :: rest)
    else if c = 'n' then do
      let rest ← unquoteAux false r
      .ok ('\n' :: rest)
    else if c = 'r' then do
      let rest ← unquoteAux false r
      .ok ('\r' :: rest)
    else if c = 't' then do
      let rest ← unquoteAux false r
      .ok ('\t' :: rest)
    else .error "invalid escape sequence"
  | false, c :: r =>
    if c = '\\' then unquoteAux true r
    else do
      let rest ← unquoteAux false r
      .ok (c :: rest)

/-- `parse.UnquoteString`. -/
def unquoteString (token : Str) : Except String Str :=
  if token.length < 2 || token.head? ≠ some '"' || token.getLast? ≠ some '"' then
    .error "invalid quoted string"
  else unquoteAux false (token.drop 1).dropLast

/-- Loop of `parse.SplitInlineValues`: split on the delimiter outside quotes,
trimming each token. -/
def splitInlineAux (delim : Char) (inQ esc : Bool) (current : Str) :
    Str → Except String (List Str)
  | [] =>
    if inQ then .error "unterminated string in delimited values"
    else .ok [trimSpace current]
  | c :: r =>
    if esc then splitInlineAux delim inQ false (current ++ [c]) r
    else if c = '\\' && inQ then splitInlineAux delim inQ true (current ++ [c]) r
    else if c = '"' then splitInlineAux delim (!inQ) false (current ++ [c]) r
    else if c = delim && !inQ then do
      let rest ← splitInlineAux delim inQ false [] r
      .ok (trimSpace current :: rest)
    else splitInlineAux delim inQ false (current ++ [c]) r

/-- `parse.SplitInlineValues`: a blank segment yields no tokens. -/
def splitInlineValues (segment : Str) (delim : Char) : Except String (List Str) :=
  if trimSpace segment = [] then .ok []
  else splitInlineAux delim false false [] segment

/-! ## Decoder (`internal/codec/decoder.go`) -/

/-- Decoded Go values (`Decode` returns `nil`, `bool`, `float64`, `string`,
`map[string]any`, `[]any`).  `dnum` carries the scaled double.  `dobj` lists
the entries of the Go map in insertion order with last-write-wins updates;
the list order carries no meaning beyond determinism of the model. -/
inductive DValue
  | dnull
  | dbool (b : Bool)
  | dnum (scaled : Int)
  | dstr (s : Str)
  | dobj (entries : List (Str × DValue))
  | darr (items : List DValue)

/-- Go map assignment `m[k] = v`: replace in place or append. -/
def mapInsert (k : Str) (v : DValue) : List (Str × DValue) → List (Str × DValue)
  | [] => [(k, v)]
  | (k', v') :: r => if k' = k then (k, v) :: r else (k', v') :: mapInsert k v r

/-- A structured parse error (`codec.parseError`): 1-based line and message.
Messages follow the Go sources; formatted arguments are rendered inline. -/
structure PErr where
  line : Nat
  msg : String
deriving DecidableEq

/-- A preprocessed line (`codec.parsedLine`; the unused `raw` field is
omitted). -/
structure PLine where
  number : Nat
  indent : Nat
  content : Str
  blank : Bool
deriving DecidableEq

/-- `strings.ReplaceAll(input, CRLF, LF)`. -/
def replaceCRLF : Str → Str
  | [] => []
  | '\r' :: '\n' :: r => '\n' :: replaceCRLF r
  | c :: r => c :: replaceCRLF r

/-- `strings.Split(input, LF)`. -/
def splitOnNL : Str → List Str
  | [] => [[]]
  | c :: r =>
    if c = '\n' then [] :: splitOnNL r
    else
      match splitOnNL r with
      | l :: ls => (c :: l) :: ls
      | [] => [[c]]

/-- `codec.splitLines`: normalize CRLF, split on LF, drop a single trailing
empty line. -/
def splitLines (input : Str) : List Str :=
  let lines := splitOnNL (replaceCRLF input)
  if lines.getLast? = some [] then lines.dropLast else lines

/-- Indentation scan of `codec.computeIndent` (`indent` counts the leading
spaces seen so far).  A whole-whitespace line reports indent level 0. -/
def computeIndentAux (cfg : decoderOptions) (indent : Nat) : Str → Except String (Nat × Str)
  | [] => .ok (0, [])
  | c :: r =>
    if c = ' ' then computeIndentAux cfg (indent + 1) r
    else if c = '\t' then
      if cfg.strict then .error "tabs are not allowed in indentation (strict mode)"
      else computeIndentAux cfg (indent + 1) r
    else
      if cfg.strict && indent % cfg.indentSize.toNat ≠ 0 then
        .error ("indentation must be a multiple of " ++
          (natDecimal cfg.indentSize.toNat).asString ++ " spaces")
      else .ok (indent / cfg.indentSize.toNat, c :: r)

def computeIndent (raw : Str) (cfg : decoderOptions) : Except String (Nat × Str) :=
  computeIndentAux cfg 0 raw

/-- The per-line loop of `codec.newParser` (`idx` is 0-based). -/
def buildLines (cfg : decoderOptions) (idx : Nat) : List Str → Except PErr (List PLine)
  | [] => .ok []
  | raw :: rest =>
    if raw.isEmpty then do
      let more ← buildLines cfg (idx + 1) rest
      .ok ({ number := idx + 1, indent := 0, content := [], blank := true } :: more)
    else
      match computeIndent raw cfg with
      | .error e => .error ⟨idx + 1, e⟩
      | .ok (indent, content) => do
        let more ← buildLines cfg (idx + 1) rest
        .ok ({ number := idx + 1, indent := indent, content := content,
               blank := trimSpace content = [] } :: more)

/-- `codec.indexOutsideQuotes` (the returned index is a rune index; the Go
byte index always falls on a rune boundary here). -/
def ioqAux (target : Char) (inQ esc : Bool) (idx : Nat) : Str → Option Nat
  | [] => none
  | c :: r =>
    if esc then ioqAux target inQ false (idx + 1) r
    else if c = '\\' && inQ then ioqAux target inQ true (idx + 1) r
    else if c = '"' then ioqAux target (!inQ) false (idx + 1) r
    else if !inQ && c = target then some idx
    else ioqAux target inQ false (idx + 1) r

def indexOutsideQuotes (s : Str) (target : Char) : Option Nat :=
  ioqAux target false false 0 s

/-- `codec.isKeyValue`: an unquoted colon at a positive index. -/
def isKeyValue (content : Str) : Bool :=
  match indexOutsideQuotes content ':' with
  | some i => 0 < i
  | none => false

/-- `codec.hasForbiddenLeadingZeros`. -/
def hasForbiddenLeadingZeros (token : Str) : Bool :=
  if token.length < 2 then false
  else
    let pass := match token with
      | '0' :: _ => true
      | '-' :: '0' :: _ => true
      | _ => false
    if !pass then false
    else if token.contains '.' || token.contains 'e' || token.contains 'E' then false
    else
      match token with
      | '-' :: _ :: c :: _ => c.isDigit
      | _ :: c :: _ => c.isDigit
      | _ => false

/-- `codec.decodeKeyToken`. -/
def decodeKeyToken (token : Str) : Except String Str :=
  match token with
  | [] => .error "empty key"
  | '"' :: _ => unquoteString token
  | _ =>
    if isValidUnquotedKey token then .ok token
    else .error "invalid unquoted key"

/-- `codec.decodePrimitiveToken`.  On the numeric path Go propagates the
`strconv.ParseFloat` error; `looksNumeric` guarantees the modelled decimal
grammar, so only range errors remain, and the result is finite whenever the
error is nil. -/
def decodePrimitiveToken (token : Str) : Except String DValue :=
  match token with
  | [] => .ok (.dstr [])
  | '"' :: _ => (unquoteString token).map .dstr
  | _ =>
    if token = "true".data then .ok (.dbool true)
    else if token = "false".data then .ok (.dbool false)
    else if token = "null".data then .ok (.dnull)
    else if hasForbiddenLeadingZeros token then .ok (.dstr token)
    else if looksNumeric token then
      match goParseFloat token with
      | .error _ => .error "value out of range"
      | .ok (.finite v) => .ok (.dnum v)
      | .ok _ => .error "model: unreachable non-finite"
    else .ok (.dstr token)

/-- `codec.splitKeyValue`. -/
def splitKeyValue (content : Str) : Except String (Str × Str) :=
  match indexOutsideQuotes content ':' with
  | none => .error "missing colon after key"
  | some colon => do
    let key ← decodeKeyToken (trimSpace (content.take colon))
    .ok (key, trimSpace (content.drop (colon + 1)))

/-- `codec.parsedHeader`. -/
structure PHeader where
  key : Str
  length : Nat
  delimiter : Delimiter
  fields : List Str
  inlineValues : Str
deriving DecidableEq

/-- Scanning loop of `codec.parseBracketSegment`: collect digits, record the
last delimiter symbol seen, reject anything else (a literal comma included). -/
def bracketScan (digits : Str) (delim : Delimiter) : Str → Except String (Str × Delimiter)
  | [] => .ok (digits, delim)
  | c :: r =>
    if c.isDigit then bracketScan (digits ++ [c]) delim r
    else if c = '\t' then bracketScan digits DelimiterTab r
    else if c = '|' then bracketScan digits DelimiterPipe r
    else .error "invalid delimiter symbol"

/-- `codec.parseBracketSegment`. -/
def parseBracketSegment (segment : Str) : Except String (Nat × Delimiter) :=
  let segment := match segment with
    | '#' :: r => r
    | s => s
  if segment.isEmpty then .error "missing array length"
  else do
    let (digits, delim) ← bracketScan [] DelimiterComma segment
    if digits.isEmpty then .error "missing digits in array length"
    else .ok (digitsVal digits, delim)

/-- Decode every field name of a header field segment. -/
def decodeKeyTokens : List Str → Except String (List Str)
  | [] => .ok []
  | t :: r => do
    let k ← decodeKeyToken t
    let more ← decodeKeyTokens r
    .ok (k :: more)

/-- `codec.tryParseHeader`: `ok none` means "not a header" (no error);
`error` is a malformed header. -/
def tryParseHeader (content : Str) : Except String (Option PHeader) :=
  match indexOutsideQuotes content ':' with
  | none => .ok none
  | some colon =>
    let left := trimSpace (content.take colon)
    let right := trimSpace (content.drop (colon + 1))
    if left.isEmpty then .ok none
    else
      match indexOutsideQuotes left '[' with
      | none => .ok none
      | some bracketStart =>
        let rest := left.drop (bracketStart + 1)
        match indexOutsideQuotes rest ']' with
        | none => .error "missing closing bracket in array header"
        | some bracketOffset => do
          let keyPart := trimSpace (left.take bracketStart)
          let bracketSegment := rest.take bracketOffset
          let fieldSegment := trimSpace (rest.drop (bracketOffset + 1))
          let key ← if keyPart.isEmpty then pure [] else decodeKeyToken keyPart
          let (length, delim) ← parseBracketSegment bracketSegment
          let fields ←
            if fieldSegment.isEmpty then pure []
            else
              if fieldSegment.head? = some '\x7b' && fieldSegment.getLast? = some '\x7d' then
                let inner := (fieldSegment.drop 1).dropLast
                if inner.isEmpty then pure []
                else do
                  let raw ← splitInlineValues inner (delimRune delim)
                  decodeKeyTokens raw
              else .error "invalid field segment in array header"
          .ok (some { key := key, length := length, delimiter := delim,
                      fields := fields, inlineValues := right })

end ToonGo

namespace ToonGo

/-- Line number used by errors reported "at the previous line"
(`p.lines[p.pos-1].number`). -/
def prevLineNum (lines : List PLine) (pos : Nat) : Nat :=
  match lines.get? (pos - 1) with
  | some l => l.number
  | none => 0

/-- `parser.nextNonBlankIndent`: indent of the first non-blank line after
`from`. -/
def nextNonBlankIndent (lines : List PLine) (start : Nat) : Option Nat :=
  ((lines.drop (start + 1)).find? fun l => !l.blank).map (·.indent)

/-- `parser.skipBlankLinesOutsideArrays`. -/
def skipBlanksFrom (lines : List PLine) (pos : Nat) : Nat :=
  pos + ((lines.drop pos).takeWhile (·.blank)).length

/-- `parser.countRemainingNonBlank`. -/
def countRemainingNonBlank (lines : List PLine) (pos : Nat) : Nat :=
  ((lines.drop pos).filter fun l => !l.blank).length

/-- Token-decoding loop of the inline branch of `parser.parseArray`. -/
def decodeTokens : List Str → Except String (List DValue)
  | [] => .ok []
  | t :: r => do
    let v ← decodePrimitiveToken t
    let more ← decodeTokens r
    .ok (v :: more)

/-- Row-building loop of the tabular branch: pair header fields with row
tokens, stopping at the shorter of the two lists, surplus tokens dropped. -/
def buildTabularRow (acc : List (Str × DValue)) :
    List Str → List Str → Except String (List (Str × DValue))
  | [], _ => .ok acc
  | _ :: _, [] => .ok acc
  | f :: fs, t :: ts => do
    let v ← decodePrimitiveToken t
    buildTabularRow (mapInsert f v acc) fs ts

/-- Fixed-text pieces of the Go error messages with a formatted count. -/
def msgInlineMismatch (want got : Nat) : String :=
  "inline array length mismatch; expected " ++ (natDecimal want).asString ++
  ", got " ++ (natDecimal got).asString

def msgTabularMismatch (want : Nat) : String :=
  "tabular length mismatch; expected " ++ (natDecimal want).asString ++ " rows"

def msgTooManyRows (want : Nat) : String :=
  "too many tabular rows (expected " ++ (natDecimal want).asString ++ ")"

def msgListMismatch (want : Nat) : String :=
  "list length mismatch; expected " ++ (natDecimal want).asString ++ " items"

/-- The mutually recursive parser procedures of `decoder.go`, as one
fuel-indexed machine over the preprocessed lines:

* `pobj depth acc` — the field loop of `parser.parseObject` (the object
  built so far in `acc`);
* `parr h depth` — `parser.parseArray` entry, the cursor just past the
  header line;
* `ptab h depth rows` — its tabular-row loop;
* `plist h depth vals` — its object-list / list-of-values loop;
* `psib depth acc` — `parser.collectObjectListSiblings`.

Results pair the produced value with the final cursor. -/
inductive PCall
  | pobj (depth : Nat) (acc : List (Str × DValue))
  | parr (h : PHeader) (depth : Nat)
  | ptab (h : PHeader) (depth : Nat) (rows : List DValue)
  | plist (h : PHeader) (depth : Nat) (vals : List DValue)
  | psib (depth : Nat) (acc : List (Str × DValue))

def pgo (lines : List PLine) (cfg : decoderOptions) :
    Nat → PCall → Nat → Except PErr (DValue × Nat)
  | 0, _, _ => .error ⟨0, "model: out of fuel"⟩
  | fuel + 1, .pobj depth acc, pos =>
    match lines.get? pos with
    | none => .ok (.dobj acc, pos)
    | some line =>
      if line.blank then pgo lines cfg fuel (.pobj depth acc) (pos + 1)
      else if line.indent < depth then .ok (.dobj acc, pos)
      else if depth < line.indent then .error ⟨line.number, "unexpected indentation"⟩
      else
        match tryParseHeader line.content with
        | .error e => .error ⟨line.number, e⟩
        | .ok (some header) =>
          if header.key.isEmpty then
            .error ⟨line.number, "arrays within objects must have a key"⟩
          else do
            let (value, pos') ← pgo lines cfg fuel (.parr header depth) (pos + 1)
            pgo lines cfg fuel (.pobj depth (mapInsert header.key value acc)) pos'
        | .ok none =>
          match splitKeyValue line.content with
          | .error e => .error ⟨line.number, e⟩
          | .ok (key, rest) =>
            if rest.isEmpty then do
              let (nested, pos') ← pgo lines cfg fuel (.pobj (depth + 1) []) (pos + 1)
              pgo lines cfg fuel (.pobj depth (mapInsert key nested acc)) pos'
            else
              match decodePrimitiveToken rest with
              | .error e => .error ⟨line.number, e⟩
              | .ok value =>
                pgo lines cfg fuel (.pobj depth (mapInsert key value acc)) (pos + 1)
  | fuel + 1, .parr header depth, pos =>
    if header.inlineValues.length > 0 then
      match splitInlineValues header.inlineValues (delimRune header.delimiter) with
      | .error e => .error ⟨prevLineNum lines pos, e⟩
      | .ok raw =>
        match decodeTokens raw with
        | .error e => .error ⟨prevLineNum lines pos, e⟩
        | .ok values =>
          if cfg.strict && values.length ≠ header.length then
            .error ⟨prevLineNum lines pos, msgInlineMismatch header.length values.length⟩
          else .ok (.darr values, pos)
    else if header.fields.length > 0 then
      pgo lines cfg fuel (.ptab header depth []) pos
    else
      pgo lines cfg fuel (.plist header depth []) pos
  | fuel + 1, .ptab header depth rows, pos =>
    match lines.get? pos with
    | none =>
      if cfg.strict && rows.length ≠ header.length then
        .error ⟨prevLineNum lines pos, msgTabularMismatch header.length⟩
      else .ok (.darr rows, pos)
    | some line =>
      if line.blank then
        if cfg.strict then
          match nextNonBlankIndent lines pos with
          | none =>
            if rows.length ≠ header.length then
              .error ⟨prevLineNum lines pos, msgTabularMismatch header.length⟩
            else .ok (.darr rows, pos)
          | some ni =>
            if ni ≤ depth then
              if rows.length ≠ header.length then
                .error ⟨prevLineNum lines pos, msgTabularMismatch header.length⟩
              else .ok (.darr rows, pos)
            else .error ⟨line.number, "blank line inside tabular array"⟩
        else pgo lines cfg fuel (.ptab header depth rows) (pos + 1)
      else if line.indent ≤ depth then
        if cfg.strict && rows.length ≠ header.length then
          .error ⟨prevLineNum lines pos, msgTabularMismatch header.length⟩
        else .ok (.darr rows, pos)
      else if line.indent ≠ depth + 1 then
        .error ⟨line.number, "invalid indentation for tabular row"⟩
      else
        let trimmed := trimSpace line.content
        if indexOutsideQuotes trimmed ':' ≠ none then
          if cfg.strict && rows.length ≠ header.length then
            .error ⟨prevLineNum lines pos, msgTabularMismatch header.length⟩
          else .ok (.darr rows, pos)
        else
          match splitInlineValues trimmed (delimRune header.delimiter) with
          | .error e => .error ⟨line.number, e⟩
          | .ok raw =>
            if cfg.strict && raw.length ≠ header.fields.length then
              .error ⟨line.number, "tabular row width mismatch"⟩
            else
              match buildTabularRow [] header.fields raw with
              | .error e => .error ⟨line.number, e⟩
              | .ok row =>
                let rows' := rows ++ [DValue.dobj row]
                if cfg.strict && header.length < rows'.length then
                  .error ⟨line.number, msgTooManyRows header.length⟩
                else pgo lines cfg fuel (.ptab header depth rows') (pos + 1)
  | fuel + 1, .plist header depth vals, pos =>
    match lines.get? pos with
    | none =>
      if cfg.strict && vals.length ≠ header.length then
        .error ⟨prevLineNum lines pos, msgListMismatch header.length⟩
      else .ok (.darr vals, pos)
    | some line =>
      if line.blank then
        if cfg.strict then
          match nextNonBlankIndent lines pos with
          | none =>
            if vals.length ≠ header.length then
              .error ⟨prevLineNum lines pos, msgListMismatch header.length⟩
            else .ok (.darr vals, pos)
          | some ni =>
            if ni ≤ depth then
              if vals.length ≠ header.length then
                .error ⟨prevLineNum lines pos, msgListMismatch header.length⟩
              else .ok (.darr vals, pos)
            else .error ⟨line.number, "blank line inside list array"⟩
        else pgo lines cfg fuel (.plist header depth vals) (pos + 1)
      else if line.indent ≤ depth then
        if cfg.strict && vals.length ≠ header.length then
          .error ⟨prevLineNum lines pos, msgListMismatch header.length⟩
        else .ok (.darr vals, pos)
      else if line.indent ≠ depth + 1 then
        .error ⟨line.number, "invalid indentation for list item"⟩
      else if line.content.head? ≠ some '-' then
        if cfg.strict && vals.length ≠ header.length then
          .error ⟨prevLineNum lines pos, msgListMismatch header.length⟩
        else .ok (.darr vals, pos)
      else
        let itemContent := trimSpace (line.content.drop 1)
        if itemContent.isEmpty then
          pgo lines cfg fuel (.plist header depth (vals ++ [DValue.dobj []])) (pos + 1)
        else if itemContent.head? = some '[' then
          match tryParseHeader itemContent with
          | .error e => .error ⟨line.number, e⟩
          | .ok none => .error ⟨line.number, "invalid array header in list item"⟩
          | .ok (some itemHeader) => do
            let (itemValue, pos') ←
              pgo lines cfg fuel (.parr itemHeader (depth + 1)) (pos + 1)
            pgo lines cfg fuel (.plist header depth (vals ++ [itemValue])) pos'
        else
          match tryParseHeader itemContent with
          | .error e => .error ⟨line.number, e⟩
          | .ok (some innerHeader) =>
            if innerHeader.key.isEmpty then
              .error ⟨line.number, "arrays within objects must have a key"⟩
            else do
              let (arrayValue, pos') ←
                pgo lines cfg fuel (.parr innerHeader (depth + 1)) (pos + 1)
              let (obj, pos'') ←
                pgo lines cfg fuel (.psib depth [(innerHeader.key, arrayValue)]) pos'
              pgo lines cfg fuel (.plist header depth (vals ++ [obj])) pos''
          | .ok none =>
            if isKeyValue itemContent then
              match splitKeyValue itemContent with
              | .error e => .error ⟨line.number, e⟩
              | .ok (key, rest) =>
                if rest.isEmpty then do
                  let (nested, pos') ← pgo lines cfg fuel (.pobj (depth + 3) []) (pos + 1)
                  pgo lines cfg fuel
                    (.plist header depth (vals ++ [DValue.dobj [(key, nested)]])) pos'
                else
                  match decodePrimitiveToken rest with
                  | .error e => .error ⟨line.number, e⟩
                  | .ok val => do
                    let (obj, pos') ← pgo lines cfg fuel (.psib depth [(key, val)]) (pos + 1)
                    pgo lines cfg fuel (.plist header depth (vals ++ [obj])) pos'
            else
              match decodePrimitiveToken itemContent with
              | .error e => .error ⟨line.number, e⟩
              | .ok value =>
                pgo lines cfg fuel (.plist header depth (vals ++ [value])) (pos + 1)
  | fuel + 1, .psib depth acc, pos =>
    match lines.get? pos with
    | none => .ok (.dobj acc, pos)
    | some next =>
      if next.blank then
        if cfg.strict then
          match nextNonBlankIndent lines pos with
          | none => .ok (.dobj acc, pos)
          | some ni =>
            if ni ≤ depth + 1 then .ok (.dobj acc, pos)
            else .error ⟨next.number, "blank line inside object list item"⟩
        else pgo lines cfg fuel (.psib depth acc) (pos + 1)
      else if next.indent ≤ depth + 1 then .ok (.dobj acc, pos)
      else if next.indent ≠ depth + 2 then
        .error ⟨next.number, "invalid indentation for object list sibling"⟩
      else
        match tryParseHeader next.content with
        | .error e => .error ⟨next.number, e⟩
        | .ok (some header) => do
          let (value, pos') ← pgo lines cfg fuel (.parr header (depth + 1)) (pos + 1)
          if header.key.isEmpty then
            .error ⟨next.number, "arrays within objects must have a key"⟩
          else pgo lines cfg fuel (.psib depth (mapInsert header.key value acc)) pos'
        | .ok none =>
          match splitKeyValue next.content with
          | .error e => .error ⟨next.number, e⟩
          | .ok (key, rest) =>
            if rest.isEmpty then do
              let (nested, pos') ← pgo lines cfg fuel (.pobj (depth + 3) []) (pos + 1)
              pgo lines cfg fuel (.psib depth (mapInsert key nested acc)) pos'
            else
              match decodePrimitiveToken rest with
              | .error e => .error ⟨next.number, e⟩
              | .ok value =>
                pgo lines cfg fuel (.psib depth (mapInsert key value acc)) (pos + 1)

/-- `parser.parseDocument`. -/
def parseDocumentRun (lines : List PLine) (cfg : decoderOptions) : Except PErr DValue :=
  let pos := skipBlanksFrom lines 0
  match lines.get? pos with
  | none => .ok (.dobj [])
  | some first =>
    let nonBlank := countRemainingNonBlank lines pos
    match tryParseHeader first.content with
    | .error e => .error ⟨first.number, e⟩
    | .ok headerOpt =>
      if nonBlank = 1 && headerOpt = none && !isKeyValue first.content then
        match decodePrimitiveToken (trimSpace first.content) with
        | .error e => .error ⟨first.number, e⟩
        | .ok value => .ok value
      else
        match headerOpt with
        | some header =>
          if first.indent = 0 && header.key.isEmpty then
            (pgo lines cfg modelFuel (.parr header 0) (pos + 1)).map Prod.fst
          else (pgo lines cfg modelFuel (.pobj 0 []) pos).map Prod.fst
        | none => (pgo lines cfg modelFuel (.pobj 0 []) pos).map Prod.fst

/-- `Decoder.Decode`: preprocess the lines, then parse the document. -/
def decode (cfg : decoderOptions) (input : Str) : Except PErr DValue := do
  let lines ← buildLines cfg 0 (splitLines input)
  parseDocumentRun lines cfg

end ToonGo

namespace ToonGo

/-! ## Decidable comparison helpers for decoded values

`DValue` is a nested inductive, for which equality cannot be derived
structurally in this Lean version; a fuel-indexed Boolean comparison with a
soundness lemma lets concrete parser results be checked in the kernel. -/

def dvalBEq : Nat → DValue → DValue → Bool
  | 0, _, _ => false
  | _ + 1, .dnull, .dnull => true
  | _ + 1, .dbool a, .dbool b => a == b
  | _ + 1, .dnum a, .dnum b => a == b
  | _ + 1, .dstr a, .dstr b => a == b
  | _ + 1, .dobj [], .dobj [] => true
  | f + 1, .dobj ((k, v) :: r), .dobj ((k', v') :: r') =>
    k == k' && dvalBEq f v v' && dvalBEq f (.dobj r) (.dobj r')
  | _ + 1, .darr [], .darr [] => true
  | f + 1, .darr (v :: r), .darr (v' :: r') =>
    dvalBEq f v v' && dvalBEq f (.darr r) (.darr r')
  | _ + 1, _, _ => false

theorem dvalBEq_sound : ∀ fuel a b, dvalBEq fuel a b = true → a = b := by
  intro fuel
  induction fuel with
  | zero => intro a b h; exact absurd h (by simp [dvalBEq])
  | succ f ih =>
    intro a b h
    cases a <;> cases b
    case dnull.dnull => rfl
    case dbool.dbool x y =>
      have hx : x = y := by simpa [dvalBEq] using h
      rw [hx]
    case dnum.dnum x y =>
      have hx : x = y := by simpa [dvalBEq] using h
      rw [hx]
    case dstr.dstr x y =>
      have hx : x = y := by simpa [dvalBEq] using h
      rw [hx]
    case dobj.dobj es fs =>
      cases es <;> cases fs
      case nil.nil => rfl
      case cons.cons p r q r' =>
        obtain ⟨k, v⟩ := p
        obtain ⟨k', v'⟩ := q
        have hx : (k = k' ∧ dvalBEq f v v' = true) ∧
            dvalBEq f (.dobj r) (.dobj r') = true := by
          simpa [dvalBEq, Bool.and_eq_true] using h
        have hv : v = v' := ih _ _ hx.1.2
        have hr : DValue.dobj r = DValue.dobj r' := ih _ _ hx.2
        have hr' : r = r' := by injection hr
        rw [hx.1.1, hv, hr']
      all_goals exact absurd h (by simp [dvalBEq])
    case darr.darr es fs =>
      cases es <;> cases fs
      case nil.nil => rfl
      case cons.cons v r v' r' =>
        have hx : dvalBEq f v v' = true ∧ dvalBEq f (.darr r) (.darr r') = true := by
          simpa [dvalBEq, Bool.and_eq_true] using h
        have hv : v = v' := ih _ _ hx.1
        have hr : DValue.darr r = DValue.darr r' := ih _ _ hx.2
        have hr' : r = r' := by injection hr
        rw [hv, hr']
      all_goals exact absurd h (by simp [dvalBEq])
    all_goals exact absurd h (by simp [dvalBEq])

/-- Boolean comparison of parser outcomes. -/
def decResBEq (fuel : Nat) : Except PErr DValue → Except PErr DValue → Bool
  | .error e, .error e' => e == e'
  | .ok v, .ok v' => dvalBEq fuel v v'
  | _, _ => false

theorem decResBEq_sound (fuel : Nat) (a b : Except PErr DValue)
    (h : decResBEq fuel a b = true) : a = b := by
  cases a <;> cases b <;> simp only [decResBEq] at h ⊢
  case error.error e e' =>
    rw [show (e == e') = decide (e = e') from rfl] at h
    rw [of_decide_eq_true h]
  case error.ok e v => exact absurd h (by simp)
  case ok.error v e => exact absurd h (by simp)
  case ok.ok v v' => rw [dvalBEq_sound fuel v v' h]

end ToonGo

namespace ToonGo

/-! ## Claim theorems -/

/-- C1: evaluation of the codec at the failing input `[{}]` (a sequence
holding one empty ordered object).  The encoder emits the document
`[1]:` / `- {}`, but decoding that document yields the *string* `"{}"`
in place of the empty object: `decodePrimitiveToken` has no case for `{}`,
so `Decode(Encode(v))` is not structurally equal to `v` and the round-trip
claim fails on the codec's own output. -/
theorem claim_C1_roundtrip_empty_object_element :
    marshal defaultEncoderOptions (.harr [.hobj []]) = .ok "[1]:\n  - \x7b\x7d".data ∧
    decode defaultDecoderOptions "[1]:\n  - \x7b\x7d".data =
      .ok (.darr [.dstr "\x7b\x7d".data]) :=
  ⟨by decide, decResBEq_sound 100 _ _ (by decide)⟩

/-- C2 counterexample: `normalizeNumberString` turns `"9007199254740993"`
into the number literal `9007199254740992` — its shortest double rendering,
which does not round-trip the original digits — instead of keeping the
string, contradicting the claim's "otherwise s is kept as a string". -/
theorem claim_C2_counterexample_no_roundtrip_check :
    normalizeNumberString "9007199254740993".data = .vnum "9007199254740992".data ∧
    normalizeNumberString "9007199254740993".data ≠ .vstr "9007199254740993".data := by
  refine ⟨by rfl, ?_⟩
  intro h
  rw [show normalizeNumberString "9007199254740993".data = .vnum "9007199254740992".data
    from rfl] at h
  exact Value.noConfusion h

/-- C3 counterexample: two rows over the keys `a`,`b` with the second row's
fields reordered still pass `detectTabular`, and the encoder still renders
the tabular layout (header `x[2]{a,b}:` with the second row emitted in
header order) — reordering does not disable tabular layout. -/
theorem claim_C3_counterexample_reorder_stays_tabular :
    detectTabular [ .vobj [("a".data, .vnum ['1']), ("b".data, .vnum ['2'])],
                    .vobj [("b".data, .vnum ['3']), ("a".data, .vnum ['4'])] ]
      = some ["a".data, "b".data] ∧
    encRun defaultEncoderOptions 8
      (.earr "x".data
        [ .vobj [("a".data, .vnum ['1']), ("b".data, .vnum ['2'])],
          .vobj [("b".data, .vnum ['3']), ("a".data, .vnum ['4'])] ] 0 false)
      = .ok ["x[2]\x7ba,b\x7d:".data, "  1,2".data, "  4,3".data] :=
  ⟨by decide, by decide⟩

/-- C4: evaluation at the failing input.  The object-list element
`- key:` (empty value side) parses its nested object at depth d+3, but —
unlike the primitive-value case, shown in the second conjunct — never
collects the `sib: 2` sibling at indent d+2: the list loop then rejects
that line with "invalid indentation for list item". -/
theorem claim_C4_empty_value_side_drops_siblings :
    decode defaultDecoderOptions
      "items[1]:\n  - key:\n      x: 1\n    sib: 2".data =
      .error ⟨4, "invalid indentation for list item"⟩ ∧
    decode defaultDecoderOptions
      "items[1]:\n  - key: 1\n    sib: 2".data =
      .ok (.dobj [("items".data, .darr [.dobj [("key".data, .dnum (f64OfNat 1)),
        ("sib".data, .dnum (f64OfNat 2))]])]) :=
  ⟨decResBEq_sound 100 _ _ (by decide), decResBEq_sound 100 _ _ (by decide)⟩

/-- C5 counterexample: an unkeyed array header is not `InvalidHeader`
wherever it appears — `tryParseHeader` accepts `[2]: a,b` with an empty key
and no error, and at the root the document `[2]: 1,2` decodes successfully
to the sequence `[1, 2]`. -/
theorem claim_C5_counterexample_unkeyed_header_root :
    tryParseHeader "[2]: a,b".data =
      .ok (some { key := [], length := 2, delimiter := DelimiterComma,
                  fields := [], inlineValues := "a,b".data }) ∧
    decode defaultDecoderOptions "[2]: 1,2".data =
      .ok (.darr [.dnum (f64OfNat 1), .dnum (f64OfNat 2)]) :=
  ⟨by decide, decResBEq_sound 100 _ _ (by decide)⟩

/-- C5 amended: missing closing bracket and missing length digits are
`InvalidHeader` errors of `tryParseHeader`; an empty key left of `[` parses
into a header with empty key, which is rejected (with "arrays within objects
must have a key") when the header is a field of an object, while at the root
it is accepted as the root sequence. -/
theorem claim_C5_amended_header_errors :
    tryParseHeader "items[2: 1".data = .error "missing closing bracket in array header" ∧
    tryParseHeader "items[]: 1".data = .error "missing array length" ∧
    tryParseHeader "items[|]: 1".data = .error "missing digits in array length" ∧
    decode defaultDecoderOptions "a: 1\n[2]: 1,2".data =
      .error ⟨2, "arrays within objects must have a key"⟩ ∧
    decode { defaultDecoderOptions with strict := false } "a: 1\n[2]: 1,2".data =
      .error ⟨2, "arrays within objects must have a key"⟩ ∧
    decode defaultDecoderOptions "[2]: 3,4".data =
      .ok (.darr [.dnum (f64OfNat 3), .dnum (f64OfNat 4)]) :=
  ⟨by decide, by decide, by decide,
   decResBEq_sound 100 _ _ (by decide),
   decResBEq_sound 100 _ _ (by decide),
   decResBEq_sound 100 _ _ (by decide)⟩

end ToonGo

namespace ToonGo

theorem replaceCRLF_of_space_nl : ∀ s : Str, (∀ c ∈ s, c = ' ' ∨ c = '\n') →
    replaceCRLF s = s := by
  intro s
  induction s with
  | nil => intro _; rfl
  | cons c r ih =>
    intro h
    have hc := h c (List.mem_cons_self c r)
    have hr : ∀ x ∈ r, x = ' ' ∨ x = '\n' := fun x hx => h x (List.mem_cons_of_mem c hx)
    rcases hc with rfl | rfl
    · show replaceCRLF (' ' :: r) = ' ' :: r
      rw [show replaceCRLF (' ' :: r) = ' ' :: replaceCRLF r from rfl, ih hr]
    · cases r with
      | nil => rfl
      | cons d t =>
        rw [show replaceCRLF ('\n' :: d :: t) = '\n' :: replaceCRLF (d :: t) from rfl,
          ih hr]

theorem splitOnNL_ne_nil : ∀ s : Str, splitOnNL s ≠ [] := by
  intro s
  induction s with
  | nil => simp [splitOnNL]
  | cons c r ih =>
    rw [splitOnNL]
    by_cases hc : c = '\n'
    · simp [hc]
    · simp only [if_neg hc]
      cases hsp : splitOnNL r with
      | nil => simp
      | cons l ls => simp

theorem splitOnNL_spaces : ∀ s : Str, (∀ c ∈ s, c = ' ' ∨ c = '\n') →
    ∀ l ∈ splitOnNL s, ∀ c ∈ l, c = ' ' := by
  intro s
  induction s with
  | nil =>
    intro _ l hl c hc
    simp only [splitOnNL, List.mem_singleton] at hl
    subst hl
    exact absurd hc (List.not_mem_nil c)
  | cons a r ih =>
    intro h l hl c hc
    have ha := h a (List.mem_cons_self a r)
    have hr : ∀ x ∈ r, x = ' ' ∨ x = '\n' := fun x hx => h x (List.mem_cons_of_mem a hx)
    rw [splitOnNL] at hl
    rcases ha with rfl | rfl
    · rw [if_neg (by decide)] at hl
      cases hsp : splitOnNL r with
      | nil => exact absurd hsp (splitOnNL_ne_nil r)
      | cons l0 ls =>
        rw [hsp] at hl
        rcases List.mem_cons.mp hl with rfl | hl'
        · rcases List.mem_cons.mp hc with rfl | hc'
          · rfl
          · exact ih hr l0 (hsp ▸ List.mem_cons_self l0 ls) c hc'
        · exact ih hr l (hsp ▸ List.mem_cons_of_mem l0 hl') c hc
    · rw [if_pos rfl] at hl
      rcases List.mem_cons.mp hl with rfl | hl'
      · exact absurd hc (List.not_mem_nil c)
      · exact ih hr l hl' c hc

theorem splitLines_spaces (s : Str) (h : ∀ c ∈ s, c = ' ' ∨ c = '\n') :
    ∀ l ∈ splitLines s, ∀ c ∈ l, c = ' ' := by
  intro l hl c hc
  have hmem : l ∈ splitOnNL (replaceCRLF s) := by
    rw [replaceCRLF_of_space_nl s h]
    unfold splitLines at hl
    rw [replaceCRLF_of_space_nl s h] at hl
    by_cases hlast : (splitOnNL s).getLast? = some []
    · rw [if_pos hlast] at hl
      exact (List.dropLast_sublist (splitOnNL s)).subset hl
    · rw [if_neg hlast] at hl
      exact hl
  exact splitOnNL_spaces (replaceCRLF s)
    (fun x hx => by rw [replaceCRLF_of_space_nl s h] at hx; exact h x hx) l hmem c hc

theorem computeIndentAux_spaces (cfg : decoderOptions) :
    ∀ (s : Str) (k : Nat), (∀ c ∈ s, c = ' ') → computeIndentAux cfg k s = .ok (0, []) := by
  intro s
  induction s with
  | nil => intro k _; rfl
  | cons c r ih =>
    intro k h
    have hc : c = ' ' := h c (List.mem_cons_self c r)
    subst hc
    show computeIndentAux cfg k (' ' :: r) = .ok (0, [])
    rw [show computeIndentAux cfg k (' ' :: r) = computeIndentAux cfg (k + 1) r from by
      simp [computeIndentAux]]
    exact ih (k + 1) (fun x hx => h x (List.mem_cons_of_mem ' ' hx))

theorem buildLines_blank (cfg : decoderOptions) :
    ∀ (rawLines : List Str) (idx : Nat),
      (∀ l ∈ rawLines, ∀ c ∈ l, c = ' ') →
      ∃ pls, buildLines cfg idx rawLines = .ok pls ∧ ∀ p ∈ pls, p.blank = true := by
  intro rawLines
  induction rawLines with
  | nil => intro idx _; exact ⟨[], rfl, by simp⟩
  | cons raw rest ih =>
    intro idx h
    have hraw : ∀ c ∈ raw, c = ' ' := h raw (List.mem_cons_self raw rest)
    have hrest : ∀ l ∈ rest, ∀ c ∈ l, c = ' ' :=
      fun l hl => h l (List.mem_cons_of_mem raw hl)
    obtain ⟨pls, hpls, hblank⟩ := ih (idx + 1) hrest
    by_cases hempty : raw = []
    · subst hempty
      refine ⟨{ number := idx + 1, indent := 0, content := [], blank := true } :: pls,
        ?_, ?_⟩
      · simp only [buildLines, List.isEmpty_nil, if_true, hpls, Except.bind]
        rfl
      · intro p hp
        rcases List.mem_cons.mp hp with rfl | hp'
        · rfl
        · exact hblank p hp'
    · have hne : raw.isEmpty = false := by
        cases raw with
        | nil => exact absurd rfl hempty
        | cons a b => rfl
      refine ⟨{ number := idx + 1, indent := 0, content := [],
                blank := (decide (trimSpace ([] : Str) = [])) } :: pls, ?_, ?_⟩
      · simp only [buildLines, hne, Bool.false_eq_true, if_false,
          show computeIndent raw cfg = .ok (0, []) from
            computeIndentAux_spaces cfg raw 0 hraw, hpls, Except.bind]
        rfl
      · intro p hp
        rcases List.mem_cons.mp hp with rfl | hp'
        · rfl
        · exact hblank p hp'

theorem parseDocumentRun_all_blank (lines : List PLine) (cfg : decoderOptions)
    (h : ∀ p ∈ lines, p.blank = true) :
    parseDocumentRun lines cfg = .ok (.dobj []) := by
  have htake : lines.takeWhile (·.blank) = lines := List.takeWhile_eq_self_iff.mpr h
  have hget : lines.get? (0 + lines.length) = none := List.get?_eq_none.mpr (by omega)
  unfold parseDocumentRun skipBlanksFrom
  simp only [List.drop_zero, htake, hget]

/-- C7: an empty ordered object at the root encodes (with and without the
normalization step) to the empty document, the empty document decodes to an
empty object, and so does any document consisting solely of blank lines
(spaces and newlines), under any decoder configuration. -/
theorem claim_C7_empty_document :
    marshalValue defaultEncoderOptions (.vobj []) = .ok [] ∧
    marshal defaultEncoderOptions (.hobj []) = .ok [] ∧
    decode defaultDecoderOptions [] = .ok (.dobj []) ∧
    (∀ (cfg : decoderOptions) (s : Str), (∀ c ∈ s, c = ' ' ∨ c = '\n') →
      decode cfg s = .ok (.dobj [])) := by
  refine ⟨rfl, rfl, decResBEq_sound 5 _ _ (by decide), ?_⟩
  intro cfg s h
  obtain ⟨pls, hpls, hblank⟩ :=
    buildLines_blank cfg (splitLines s) 0 (splitLines_spaces s h)
  unfold decode
  rw [hpls]
  show parseDocumentRun pls cfg = .ok (.dobj [])
  exact parseDocumentRun_all_blank pls cfg hblank

/-- Witness for C7 at a concrete blank document. -/
theorem claim_C7_witness :
    decode defaultDecoderOptions "  \n\n ".data = .ok (.dobj []) :=
  claim_C7_empty_document.2.2.2 defaultDecoderOptions "  \n\n ".data (by decide)

end ToonGo

namespace ToonGo

/-- The delimiter alphabet of the configuration invariant. -/
def delimOk (d : Delimiter) : Prop :=
  d = DelimiterComma ∨ d = DelimiterTab ∨ d = DelimiterPipe

theorem delimOk_of_bool {d : Delimiter}
    (h : (d = DelimiterComma || d = DelimiterTab || d = DelimiterPipe) = true) :
    delimOk d := by
  simp only [Bool.or_eq_true, decide_eq_true_eq] at h
  rcases h with (h | h) | h
  exacts [.inl h, .inr (.inl h), .inr (.inr h)]

theorem bool_of_delimOk {d : Delimiter} (h : delimOk d) :
    (d = DelimiterComma || d = DelimiterTab || d = DelimiterPipe) = true := by
  simp only [Bool.or_eq_true, decide_eq_true_eq]
  rcases h with h | h | h
  exacts [.inl (.inl h), .inl (.inr h), .inr h]

theorem applyEncoderOption_inv (o : encoderOptions)
    (h : 1 ≤ o.indentSize ∧ delimOk o.documentDelimiter ∧ delimOk o.arrayDelimiter) :
    ∀ opt, 1 ≤ (applyEncoderOption o opt).indentSize ∧
      delimOk (applyEncoderOption o opt).documentDelimiter ∧
      delimOk (applyEncoderOption o opt).arrayDelimiter := by
  obtain ⟨h1, h2, h3⟩ := h
  intro opt
  cases opt with
  | withIndent n =>
    simp only [applyEncoderOption]
    split
    · rename_i hn
      refine ⟨?_, h2, h3⟩
      show 1 ≤ n
      omega
    · exact ⟨h1, h2, h3⟩
  | withDocumentDelimiter d =>
    simp only [applyEncoderOption]
    split
    · rename_i hd
      exact ⟨h1, delimOk_of_bool hd, h3⟩
    · exact ⟨h1, h2, h3⟩
  | withArrayDelimiter d =>
    simp only [applyEncoderOption]
    split
    · rename_i hd
      exact ⟨h1, h2, delimOk_of_bool hd⟩
    · exact ⟨h1, h2, h3⟩
  | withLengthMarkers b => exact ⟨h1, h2, h3⟩
  | withTimeFormatter f =>
    cases f with
    | some fn => exact ⟨h1, h2, h3⟩
    | none => exact ⟨h1, h2, h3⟩

theorem applyDecoderOption_inv (o : decoderOptions)
    (h : 1 ≤ o.indentSize ∧ delimOk o.documentDelim) :
    ∀ opt, 1 ≤ (applyDecoderOption o opt).indentSize ∧
      delimOk (applyDecoderOption o opt).documentDelim := by
  obtain ⟨h1, h2⟩ := h
  intro opt
  cases opt with
  | withStrictMode b => exact ⟨h1, h2⟩
  | withDecoderIndent n =>
    simp only [applyDecoderOption]
    split
    · rename_i hn
      refine ⟨?_, h2⟩
      show 1 ≤ n
      omega
    · exact ⟨h1, h2⟩
  | withDecoderDocumentDelimiter d =>
    simp only [applyDecoderOption]
    split
    · rename_i hd
      exact ⟨h1, delimOk_of_bool hd⟩
    · exact ⟨h1, h2⟩

theorem foldl_encoder_inv (opts : List EncoderOption) :
    ∀ o : encoderOptions,
      (1 ≤ o.indentSize ∧ delimOk o.documentDelimiter ∧ delimOk o.arrayDelimiter) →
      1 ≤ (opts.foldl applyEncoderOption o).indentSize ∧
      delimOk (opts.foldl applyEncoderOption o).documentDelimiter ∧
      delimOk (opts.foldl applyEncoderOption o).arrayDelimiter := by
  induction opts with
  | nil => intro o h; exact h
  | cons opt rest ih =>
    intro o h
    exact ih (applyEncoderOption o opt) (applyEncoderOption_inv o h opt)

theorem foldl_decoder_inv (opts : List DecoderOption) :
    ∀ o : decoderOptions,
      (1 ≤ o.indentSize ∧ delimOk o.documentDelim) →
      1 ≤ (opts.foldl applyDecoderOption o).indentSize ∧
      delimOk (opts.foldl applyDecoderOption o).documentDelim := by
  induction opts with
  | nil => intro o h; exact h
  | cons opt rest ih =>
    intro o h
    exact ih (applyDecoderOption o opt) (applyDecoderOption_inv o h opt)

/-- C9: every encoder / decoder configuration built from any sequence of
options keeps indentSize ≥ 1 and its delimiters in {comma, tab, pipe};
a non-positive indent or an unrecognized delimiter character is silently
ignored, leaving the configuration unchanged. -/
theorem claim_C9_option_invariants :
    (∀ opts : List EncoderOption,
      1 ≤ (newEncoderConfig opts).indentSize ∧
      delimOk (newEncoderConfig opts).documentDelimiter ∧
      delimOk (newEncoderConfig opts).arrayDelimiter) ∧
    (∀ opts : List DecoderOption,
      1 ≤ (newDecoderConfig opts).indentSize ∧
      delimOk (newDecoderConfig opts).documentDelim) ∧
    (∀ (o : encoderOptions) (n : Int), n ≤ 0 →
      applyEncoderOption o (.withIndent n) = o) ∧
    (∀ (o : encoderOptions) (d : Delimiter), ¬delimOk d →
      applyEncoderOption o (.withDocumentDelimiter d) = o ∧
      applyEncoderOption o (.withArrayDelimiter d) = o) ∧
    (∀ (o : decoderOptions) (n : Int), n ≤ 0 →
      applyDecoderOption o (.withDecoderIndent n) = o) ∧
    (∀ (o : decoderOptions) (d : Delimiter), ¬delimOk d →
      applyDecoderOption o (.withDecoderDocumentDelimiter d) = o) := by
  have hguard : ∀ d : Delimiter, ¬delimOk d →
      ¬((d = DelimiterComma || d = DelimiterTab || d = DelimiterPipe) = true) :=
    fun d hd hc => hd (delimOk_of_bool hc)
  refine ⟨?_, ?_, ?_, ?_, ?_, ?_⟩
  · intro opts
    exact foldl_encoder_inv opts defaultEncoderOptions
      ⟨by norm_num [defaultEncoderOptions], .inl rfl, .inl rfl⟩
  · intro opts
    exact foldl_decoder_inv opts defaultDecoderOptions
      ⟨by norm_num [defaultDecoderOptions], .inl rfl⟩
  · intro o n hn
    simp only [applyEncoderOption]
    rw [if_neg (by omega)]
  · intro o d hd
    constructor
    · simp only [applyEncoderOption]
      rw [if_neg (hguard d hd)]
    · simp only [applyEncoderOption]
      rw [if_neg (hguard d hd)]
  · intro o n hn
    simp only [applyDecoderOption]
    rw [if_neg (by omega)]
  · intro o d hd
    simp only [applyDecoderOption]
    rw [if_neg (hguard d hd)]

/-- Witness for C9: a configuration built with an ignored zero indent, an
ignored `x` delimiter and a length-marker toggle still satisfies the
invariant, and an ignored negative decoder indent is a literal identity. -/
theorem claim_C9_witness :
    (1 ≤ (newEncoderConfig [.withIndent 0, .withDocumentDelimiter 'x',
        .withLengthMarkers true]).indentSize ∧
      delimOk (newEncoderConfig [.withIndent 0, .withDocumentDelimiter 'x',
        .withLengthMarkers true]).documentDelimiter ∧
      delimOk (newEncoderConfig [.withIndent 0, .withDocumentDelimiter 'x',
        .withLengthMarkers true]).arrayDelimiter) ∧
    applyDecoderOption defaultDecoderOptions (.withDecoderIndent (-2)) =
      defaultDecoderOptions :=
  ⟨claim_C9_option_invariants.1 _,
   claim_C9_option_invariants.2.2.2.2.1 defaultDecoderOptions (-2) (by norm_num)⟩

end ToonGo

namespace ToonGo

/-- Boolean comparison of token-decoding outcomes. -/
def tokResBEq (fuel : Nat) : Except String (List DValue) → Except String (List DValue) → Bool
  | .error e, .error e' => e == e'
  | .ok v, .ok v' => dvalBEq fuel (.darr v) (.darr v')
  | _, _ => false

theorem tokResBEq_sound (fuel : Nat) (a b : Except String (List DValue))
    (h : tokResBEq fuel a b = true) : a = b := by
  cases a <;> cases b <;> simp only [tokResBEq] at h
  case error.error e e' =>
    rw [show (e == e') = decide (e = e') from rfl] at h
    rw [of_decide_eq_true h]
  case error.ok e v => exact absurd h (by simp)
  case ok.error v e => exact absurd h (by simp)
  case ok.ok v v' =>
    have := dvalBEq_sound fuel (.darr v) (.darr v') h
    have hv : v = v' := by injection this
    rw [hv]

/-- C6: for an array header carrying inline values (tokenization and token
decoding succeeding), strict decoding yields the LengthMismatch error exactly
when the token count differs from the declared length, and lenient decoding
yields all decoded values; concretely, `items[2]: 1,2,3` errors under strict
mode and decodes to the sequence 1,2,3 under lenient mode. -/
theorem claim_C6_inline_length_strict_vs_lenient :
    (∀ (lines : List PLine) (cfg : decoderOptions) (fuel pos depth : Nat)
       (h : PHeader) (raw : List Str) (vals : List DValue),
       h.inlineValues ≠ [] →
       splitInlineValues h.inlineValues (delimRune h.delimiter) = .ok raw →
       decodeTokens raw = .ok vals →
       pgo lines cfg (fuel + 1) (.parr h depth) pos =
         if cfg.strict ∧ vals.length ≠ h.length then
           .error ⟨prevLineNum lines pos, msgInlineMismatch h.length vals.length⟩
         else .ok (.darr vals, pos)) ∧
    decode defaultDecoderOptions "items[2]: 1,2,3".data =
      .error ⟨1, msgInlineMismatch 2 3⟩ ∧
    decode { defaultDecoderOptions with strict := false } "items[2]: 1,2,3".data =
      .ok (.dobj [("items".data,
        .darr [.dnum (f64OfNat 1), .dnum (f64OfNat 2), .dnum (f64OfNat 3)])]) := by
  refine ⟨?_, decResBEq_sound 100 _ _ (by decide), decResBEq_sound 100 _ _ (by decide)⟩
  intro lines cfg fuel pos depth h raw vals hne hsplit hdec
  have hlen : h.inlineValues.length > 0 := by
    cases hiv : h.inlineValues with
    | nil => exact absurd hiv hne
    | cons a b => simp [hiv]
  rw [pgo]
  simp only [if_pos hlen, hsplit, hdec]
  by_cases hs : cfg.strict = true
  · by_cases hl : vals.length = h.length
    · rw [if_neg, if_neg]
      · intro hc
        exact hc.2 hl
      · simp [hs, hl]
    · rw [if_pos, if_pos]
      · exact ⟨hs, hl⟩
      · simp [hs, hl]
  · have hs' : cfg.strict = false := by
      cases hb : cfg.strict
      · rfl
      · exact absurd hb hs
    rw [if_neg, if_neg]
    · intro hc
      exact hs hc.1
    · simp [hs']

/-- Witness for C6 at a concrete header with three inline tokens against a
declared length of two. -/
theorem claim_C6_witness :
    pgo [] defaultDecoderOptions 1
      (.parr { key := "items".data, length := 2, delimiter := DelimiterComma,
               fields := [], inlineValues := "1,2,3".data } 0) 0 =
      .error ⟨0, msgInlineMismatch 2 3⟩ := by
  rw [claim_C6_inline_length_strict_vs_lenient.1 [] defaultDecoderOptions 0 0 0
    _ ["1".data, "2".data, "3".data]
    [.dnum (f64OfNat 1), .dnum (f64OfNat 2), .dnum (f64OfNat 3)]
    (by decide) (by decide)
    (tokResBEq_sound 5 _ _ (by decide))]
  rw [if_pos ⟨rfl, by decide⟩]
  rfl

end ToonGo

namespace ToonGo

theorem mapInsert_fresh (k : Str) (v : DValue) :
    ∀ acc : List (Str × DValue), k ∉ acc.map Prod.fst →
      mapInsert k v acc = acc ++ [(k, v)] := by
  intro acc
  induction acc with
  | nil => intro _; rfl
  | cons p rest ih =>
    intro h
    simp only [List.map_cons, List.mem_cons] at h
    push_neg at h
    rw [mapInsert, if_neg (fun hc => h.1 hc.symm), ih h.2]
    rfl

theorem exc_bind_ok {e a b : Type} (x : a) (f : a → Except e b) :
    (Except.ok x >>= f) = f x := rfl

theorem exc_bind_err {e a b : Type} (err : e) (f : a → Except e b) :
    ((Except.error err : Except e a) >>= f) = .error err := rfl

theorem decodeTokens_cons_inv {t : Str} {ts : List Str} {vals : List DValue}
    (h : decodeTokens (t :: ts) = .ok vals) :
    ∃ v vs, decodePrimitiveToken t = .ok v ∧ decodeTokens ts = .ok vs ∧
      vals = v :: vs := by
  rw [show decodeTokens (t :: ts) =
    (decodePrimitiveToken t >>= fun v =>
      decodeTokens ts >>= fun more => Except.ok (v :: more)) from rfl] at h
  cases hv : decodePrimitiveToken t with
  | error e =>
    rw [hv, exc_bind_err] at h
    exact absurd h (by simp)
  | ok v =>
    rw [hv, exc_bind_ok] at h
    cases hvs : decodeTokens ts with
    | error e =>
      rw [hvs, exc_bind_err] at h
      exact absurd h (by simp)
    | ok vs =>
      rw [hvs, exc_bind_ok] at h
      refine ⟨v, vs, rfl, rfl, ?_⟩
      injection h with h'
      exact h'.symm

theorem buildTabularRow_zip :
    ∀ (fields : List Str) (raw : List Str) (vals : List DValue)
      (acc : List (Str × DValue)),
      fields.Nodup → (∀ f ∈ fields, f ∉ acc.map Prod.fst) →
      decodeTokens raw = .ok vals →
      buildTabularRow acc fields raw = .ok (acc ++ fields.zip vals) := by
  intro fields
  induction fields with
  | nil =>
    intro raw vals acc _ _ _
    simp [buildTabularRow]
  | cons f fs ih =>
    intro raw vals acc hnodup hfresh hdec
    cases raw with
    | nil =>
      have hv : vals = [] := by
        rw [show decodeTokens ([] : List Str) = .ok [] from rfl] at hdec
        injection hdec with h'
        exact h'.symm
      subst hv
      simp [buildTabularRow]
    | cons t ts =>
      obtain ⟨v, vs, hv, hvs, hvals⟩ := decodeTokens_cons_inv hdec
      subst hvals
      rw [show buildTabularRow acc (f :: fs) (t :: ts) =
        (decodePrimitiveToken t >>= fun v =>
          buildTabularRow (mapInsert f v acc) fs ts) from rfl]
      rw [hv, exc_bind_ok]
      have hfnotin : f ∉ acc.map Prod.fst := hfresh f (List.mem_cons_self f fs)
      rw [mapInsert_fresh f v acc hfnotin]
      have hnodup' : fs.Nodup := (List.nodup_cons.mp hnodup).2
      have hfresh' : ∀ g ∈ fs, g ∉ (acc ++ [(f, v)]).map Prod.fst := by
        intro g hg
        simp only [List.map_append, List.mem_append, List.map_cons, List.map_nil,
          List.mem_singleton]
        push_neg
        refine ⟨hfresh g (List.mem_cons_of_mem f hg), ?_⟩
        intro hc
        exact (List.nodup_cons.mp hnodup).1 (hc ▸ hg)
      rw [ih ts vs (acc ++ [(f, v)]) hnodup' hfresh' hvs]
      simp

/-- C10: in lenient mode a tabular data row is accepted whatever its token
count: the row-building loop pairs header fields with tokens up to the
shorter list (so a short row keeps only the first k header fields and
surplus tokens are dropped), and the tabular step appends the row without
any width check.  The final conjuncts evaluate both situations end to end. -/
theorem claim_C10_lenient_tabular_row_widths :
    (∀ (fields : List Str) (raw : List Str) (vals : List DValue),
      fields.Nodup → decodeTokens raw = .ok vals →
      buildTabularRow [] fields raw = .ok (fields.zip vals)) ∧
    (∀ (lines : List PLine) (cfg : decoderOptions) (fuel : Nat) (h : PHeader)
       (depth : Nat) (rows : List DValue) (pos : Nat) (line : PLine)
       (raw : List Str) (row : List (Str × DValue)),
      cfg.strict = false →
      lines.get? pos = some line →
      line.blank = false →
      line.indent = depth + 1 →
      indexOutsideQuotes (trimSpace line.content) ':' = none →
      splitInlineValues (trimSpace line.content) (delimRune h.delimiter) = .ok raw →
      buildTabularRow [] h.fields raw = .ok row →
      pgo lines cfg (fuel + 1) (.ptab h depth rows) pos =
        pgo lines cfg fuel (.ptab h depth (rows ++ [DValue.dobj row])) (pos + 1)) ∧
    decode { defaultDecoderOptions with strict := false }
      "t[1]\x7ba,b,c\x7d:\n  1,2".data =
      .ok (.dobj [("t".data, .darr [.dobj [("a".data, .dnum (f64OfNat 1)),
        ("b".data, .dnum (f64OfNat 2))]])]) ∧
    decode { defaultDecoderOptions with strict := false }
      "t[1]\x7ba,b\x7d:\n  1,2,3".data =
      .ok (.dobj [("t".data, .darr [.dobj [("a".data, .dnum (f64OfNat 1)),
        ("b".data, .dnum (f64OfNat 2))]])]) := by
  refine ⟨?_, ?_, decResBEq_sound 100 _ _ (by decide), decResBEq_sound 100 _ _ (by decide)⟩
  · intro fields raw vals hnodup hdec
    exact buildTabularRow_zip fields raw vals [] hnodup (by simp) hdec
  · intro lines cfg fuel h depth rows pos line raw row hs hget hblank hind hcolon hsplit hrow
    rw [pgo, hget]
    simp only [hblank, Bool.false_eq_true, if_false]
    rw [if_neg (by omega), if_neg (by omega)]
    rw [if_neg (by rw [hcolon]; simp)]
    simp only [hsplit, hs, Bool.false_and, Bool.false_eq_true, if_false, hrow]

/-- Witness for C10: the row builder at a concrete short row. -/
theorem claim_C10_witness :
    buildTabularRow [] ["a".data, "b".data, "c".data] ["7".data, "8".data] =
      .ok [("a".data, .dnum (f64OfNat 7)), ("b".data, .dnum (f64OfNat 8))] := by
  rw [claim_C10_lenient_tabular_row_widths.1 ["a".data, "b".data, "c".data]
    ["7".data, "8".data] [.dnum (f64OfNat 7), .dnum (f64OfNat 8)]
    (by decide) (tokResBEq_sound 5 _ _ (by decide))]
  rfl

end ToonGo

namespace ToonGo


theorem detectTabular_cons_some {v0 : Value} {rest : List Value} {fields : List Str}
    (h : detectTabular (v0 :: rest) = some fields) :
    ∃ fs : List (Str × Value), v0 = .vobj fs ∧ fs ≠ [] ∧
      (fs.all fun f => isPrimitive f.2) = true ∧ fields = fs.map Prod.fst ∧
      (rest.all (rowCheck fields)) = true := by
  cases v0 with
  | vobj fs =>
    rw [show detectTabular (Value.vobj fs :: rest) =
      (if fs.isEmpty then none
       else if fs.all (fun f => isPrimitive f.2) then
         if rest.all (rowCheck (fs.map Prod.fst)) then some (fs.map Prod.fst) else none
       else none) from rfl] at h
    by_cases h0 : fs.isEmpty
    · rw [if_pos h0] at h; exact absurd h (by simp)
    · rw [if_neg h0] at h
      by_cases h1 : (fs.all fun f => isPrimitive f.2) = true
      · rw [if_pos h1] at h
        by_cases h2 : (rest.all (rowCheck (fs.map Prod.fst))) = true
        · rw [if_pos h2] at h
          injection h with h'
          exact ⟨fs, rfl, by simpa [List.isEmpty_iff] using h0, h1, h'.symm, h'.symm ▸ h2⟩
        · rw [if_neg h2] at h; exact absurd h (by simp)
      · rw [if_neg h1] at h; exact absurd h (by simp)
  | vnull => exact absurd h (by simp [detectTabular])
  | vbool b => exact absurd h (by simp [detectTabular])
  | vnum l => exact absurd h (by simp [detectTabular])
  | vstr s => exact absurd h (by simp [detectTabular])
  | varr l => exact absurd h (by simp [detectTabular])

theorem rowCheck_length {fields : List Str} {o : List (Str × Value)}
    (h : rowCheck fields (.vobj o) = true) : o.length = fields.length := by
  rw [show rowCheck fields (.vobj o) =
    (o.length == fields.length &&
      (o.all fun f => fields.contains f.1 && isPrimitive f.2) &&
      ((o.map Prod.fst).dedup.length == fields.length)) from rfl] at h
  simp only [Bool.and_eq_true, beq_iff_eq] at h
  exact h.1.1

theorem get?_set_self : ∀ (l : List Value) (i : Nat) (a : Value), i < l.length →
    (l.set i a).get? i = some a := by
  intro l
  induction l with
  | nil => intro i a h; simp at h
  | cons x r ih =>
    intro i a h
    cases i with
    | zero => rfl
    | succ j => exact ih j a (by simpa using h)

theorem get?_set_ne : ∀ (l : List Value) (i j : Nat) (a : Value), i ≠ j →
    (l.set i a).get? j = l.get? j := by
  intro l
  induction l with
  | nil => intro i j a _; simp
  | cons x r ih =>
    intro i j a hne
    cases i with
    | zero =>
      cases j with
      | zero => exact absurd rfl hne
      | succ j' => rfl
    | succ i' =>
      cases j with
      | zero => rfl
      | succ j' => exact ih i' j' a (fun hc => hne (by rw [hc]))

theorem all_set : ∀ (l : List Value) (p : Value → Bool) (j : Nat) (a : Value),
    l.all p = true → p a = true → (l.set j a).all p = true := by
  intro l
  induction l with
  | nil => intro p j a h _; simpa using h
  | cons x r ih =>
    intro p j a h hp
    rw [List.all_cons, Bool.and_eq_true] at h
    cases j with
    | zero =>
      rw [List.set]
      rw [List.all_cons, Bool.and_eq_true]
      exact ⟨hp, h.2⟩
    | succ j' =>
      rw [List.set]
      rw [List.all_cons, Bool.and_eq_true]
      exact ⟨h.1, ih p j' a h.2 hp⟩

theorem rowCheck_obj {fields : List Str} {w : Value} (h : rowCheck fields w = true) :
    ∃ o : List (Str × Value), w = .vobj o ∧ o.length = fields.length ∧
      (o.all fun f => fields.contains f.1 && isPrimitive f.2) = true ∧
      (o.map Prod.fst).dedup.length = fields.length := by
  cases w with
  | vobj o =>
    rw [show rowCheck fields (.vobj o) =
      (o.length == fields.length &&
        (o.all fun f => fields.contains f.1 && isPrimitive f.2) &&
        ((o.map Prod.fst).dedup.length == fields.length)) from rfl] at h
    simp only [Bool.and_eq_true, beq_iff_eq] at h
    exact ⟨o, rfl, h.1.1, h.1.2, h.2⟩
  | vnull => exact absurd h (by simp [rowCheck])
  | vbool b => exact absurd h (by simp [rowCheck])
  | vnum l => exact absurd h (by simp [rowCheck])
  | vstr s => exact absurd h (by simp [rowCheck])
  | varr l => exact absurd h (by simp [rowCheck])

theorem rowCheck_of_parts {fields : List Str} {o : List (Str × Value)}
    (h1 : o.length = fields.length)
    (h2 : (o.all fun f => fields.contains f.1 && isPrimitive f.2) = true)
    (h3 : (o.map Prod.fst).dedup.length = fields.length) :
    rowCheck fields (.vobj o) = true := by
  rw [show rowCheck fields (.vobj o) =
    (o.length == fields.length &&
      (o.all fun f => fields.contains f.1 && isPrimitive f.2) &&
      ((o.map Prod.fst).dedup.length == fields.length)) from rfl]
  simp only [Bool.and_eq_true, beq_iff_eq]
  exact ⟨⟨h1, h2⟩, h3⟩

theorem rowCheck_perm {fields : List Str} {o o' : List (Str × Value)}
    (hperm : o'.Perm o) (h : rowCheck fields (.vobj o) = true) :
    rowCheck fields (.vobj o') = true := by
  obtain ⟨o0, heq, hlen, hall, hdedup⟩ := rowCheck_obj h
  injection heq with h0
  subst h0
  refine rowCheck_of_parts ?_ ?_ ?_
  · rw [hperm.length_eq, hlen]
  · rw [List.all_eq_true] at hall ⊢
    intro f hf
    exact hall f (hperm.mem_iff.mp hf)
  · have hm := (hperm.map Prod.fst).dedup
    rw [hm.length_eq, hdedup]

theorem rowCheck_keysPerm {gs gs' : List Str} {w : Value}
    (hperm : gs'.Perm gs) (h : rowCheck gs w = true) :
    rowCheck gs' w = true := by
  obtain ⟨o, heq, hlen, hall, hdedup⟩ := rowCheck_obj h
  subst heq
  refine rowCheck_of_parts ?_ ?_ ?_
  · rw [hlen, hperm.length_eq]
  · rw [List.all_eq_true] at hall ⊢
    intro f hf
    have := hall f hf
    rw [Bool.and_eq_true] at this ⊢
    refine ⟨?_, this.2⟩
    have hc : f.1 ∈ gs := List.elem_iff.mp this.1
    exact List.elem_iff.mpr (hperm.mem_iff.mpr hc)
  · rw [hdedup, hperm.length_eq]

theorem detectTabular_elem_len {ws : List Value} {gs : List Str} {w : Value}
    (h : detectTabular ws = some gs) (hmem : w ∈ ws) :
    ∃ p, w = .vobj p ∧ p.length = gs.length := by
  cases ws with
  | nil => exact absurd hmem (List.not_mem_nil w)
  | cons w0 rest =>
    obtain ⟨fs, hv0, hne, hprim, hfields, hall⟩ := detectTabular_cons_some h
    rcases List.mem_cons.mp hmem with rfl | hmem'
    · exact ⟨fs, hv0, by rw [hfields, List.length_map]⟩
    · have hrc : rowCheck gs w = true := (List.all_eq_true.mp hall) w hmem'
      obtain ⟨o, heq, hlen, _, _⟩ := rowCheck_obj hrc
      exact ⟨o, heq, hlen⟩

theorem detectTabular_set_len_ne {vs : List Value} {fields : List Str} {i : Nat}
    {o o' : List (Str × Value)}
    (h : detectTabular vs = some fields) (h2 : 2 ≤ vs.length) (hi : i < vs.length)
    (hget : vs.get? i = some (.vobj o)) (hlen : o'.length ≠ o.length) :
    detectTabular (vs.set i (.vobj o')) = none := by
  cases hdet : detectTabular (vs.set i (.vobj o')) with
  | none => rfl
  | some gs =>
    exfalso
    have homem : (Value.vobj o) ∈ vs := List.get?_mem hget
    obtain ⟨p, hp, hplen⟩ := detectTabular_elem_len h homem
    have hop : o = p := by injection hp
    subst hop
    have ho'mem : (Value.vobj o') ∈ vs.set i (.vobj o') :=
      List.get?_mem (get?_set_self vs i _ hi)
    obtain ⟨q, hq, hqlen⟩ := detectTabular_elem_len hdet ho'mem
    have hoq : o' = q := by injection hq
    subst hoq
    obtain ⟨j, hj, hjne⟩ : ∃ j, j < vs.length ∧ j ≠ i := by
      cases i with
      | zero => exact ⟨1, by omega, by omega⟩
      | succ _ => exact ⟨0, by omega, by omega⟩
    obtain ⟨w, hw⟩ : ∃ w, vs.get? j = some w := by
      cases hg : vs.get? j with
      | none =>
        rw [List.get?_eq_none] at hg
        omega
      | some w => exact ⟨w, rfl⟩
    have hwmem : w ∈ vs := List.get?_mem hw
    have hwmem' : w ∈ vs.set i (.vobj o') := by
      refine List.get?_mem (n := j) ?_
      rw [get?_set_ne vs i j _ (fun hc => hjne hc.symm)]
      exact hw
    obtain ⟨pw, hpw, hpwlen⟩ := detectTabular_elem_len h hwmem
    obtain ⟨pw', hpw', hpwlen'⟩ := detectTabular_elem_len hdet hwmem'
    have hsame : pw = pw' := by
      rw [hpw] at hpw'
      injection hpw'
    subst hsame
    omega

theorem detectTabular_set_perm {vs : List Value} {fields : List Str} {i : Nat}
    {o o' : List (Str × Value)}
    (h : detectTabular vs = some fields) (hget : vs.get? i = some (.vobj o))
    (hperm : o'.Perm o) :
    detectTabular (vs.set i (.vobj o')) ≠ none := by
  cases vs with
  | nil => exact absurd hget (by simp)
  | cons v0 rest =>
    obtain ⟨fs, hv0, hne, hprim, hfields, hall⟩ := detectTabular_cons_some h
    subst hv0
    cases i with
    | zero =>
      have hfso : fs = o := by
        rw [show (Value.vobj fs :: rest).get? 0 = some (.vobj fs) from rfl] at hget
        injection hget with h'
        injection h'
      subst hfso
      show detectTabular (.vobj o' :: rest) ≠ none
      rw [show detectTabular (.vobj o' :: rest) =
        (if o'.isEmpty then none
         else if o'.all (fun f => isPrimitive f.2) then
           if rest.all (rowCheck (o'.map Prod.fst)) then some (o'.map Prod.fst) else none
         else none) from rfl]
      rw [if_neg (by
        rw [List.isEmpty_iff]
        intro hc
        exact hne (List.Perm.nil_eq (hc ▸ hperm) ▸ rfl)), if_pos (by
        rw [List.all_eq_true] at hprim ⊢
        intro f hf
        exact hprim f (hperm.mem_iff.mp hf)), if_pos (by
        rw [List.all_eq_true] at hall ⊢
        intro w hw
        exact rowCheck_keysPerm (hperm.map Prod.fst) (hfields ▸ hall w hw))]
      simp
    | succ j =>
      have hrest : rest.get? j = some (.vobj o) := hget
      show detectTabular (.vobj fs :: rest.set j (.vobj o')) ≠ none
      rw [show detectTabular (.vobj fs :: rest.set j (.vobj o')) =
        (if fs.isEmpty then none
         else if fs.all (fun f => isPrimitive f.2) then
           if (rest.set j (.vobj o')).all (rowCheck (fs.map Prod.fst)) then
             some (fs.map Prod.fst)
           else none
         else none) from rfl]
      rw [if_neg (by
        rw [List.isEmpty_iff]
        intro hc
        exact hne hc), if_pos hprim, if_pos (by
        refine all_set rest _ j _ (hfields ▸ hall) ?_
        have hmem : (Value.vobj o) ∈ rest := List.get?_mem hrest
        have hrc : rowCheck fields (.vobj o) = true := (List.all_eq_true.mp hall) _ hmem
        exact hfields ▸ rowCheck_perm hperm hrc)]
      simp

/-- C3 amended: for a sequence detected as tabular, replacing any element's
object by one with a different field count — in particular adding or
removing a field, with at least two elements — disables tabular layout,
while replacing an element's fields by any permutation of them (same key
set) keeps tabular layout enabled. -/
theorem claim_C3_amended_tabular_stability :
    (∀ (vs : List Value) (fields : List Str) (i : Nat) (o o' : List (Str × Value)),
      detectTabular vs = some fields → 2 ≤ vs.length → i < vs.length →
      vs.get? i = some (.vobj o) → o'.length ≠ o.length →
      detectTabular (vs.set i (.vobj o')) = none) ∧
    (∀ (vs : List Value) (fields : List Str) (i : Nat) (o o' : List (Str × Value)),
      detectTabular vs = some fields → vs.get? i = some (.vobj o) →
      o'.Perm o → detectTabular (vs.set i (.vobj o')) ≠ none) :=
  ⟨fun _ _ _ _ _ h h2 hi hg hl => detectTabular_set_len_ne h h2 hi hg hl,
   fun _ _ _ _ _ h hg hp => detectTabular_set_perm h hg hp⟩

/-- Witness for C3 at concrete rows: appending a fresh field `c` to the
second row disables tabular detection, while swapping its two fields keeps
it enabled. -/
theorem claim_C3_amended_witness :
    detectTabular
      ([ .vobj [("a".data, .vnum ['1']), ("b".data, .vnum ['2'])],
         .vobj [("a".data, .vnum ['3']), ("b".data, .vnum ['4'])] ].set 1
        (.vobj [("a".data, .vnum ['3']), ("b".data, .vnum ['4']),
                ("c".data, .vnum ['5'])])) = none ∧
    detectTabular
      ([ .vobj [("a".data, .vnum ['1']), ("b".data, .vnum ['2'])],
         .vobj [("a".data, .vnum ['3']), ("b".data, .vnum ['4'])] ].set 1
        (.vobj [("b".data, .vnum ['4']), ("a".data, .vnum ['3'])])) ≠ none :=
  ⟨claim_C3_amended_tabular_stability.1 _ ["a".data, "b".data] 1
      [("a".data, .vnum ['3']), ("b".data, .vnum ['4'])] _
      (by decide) (by decide) (by decide) rfl (by decide),
   claim_C3_amended_tabular_stability.2 _ ["a".data, "b".data] 1
      [("a".data, .vnum ['3']), ("b".data, .vnum ['4'])] _
      (by decide) rfl (List.Perm.swap _ _ [])⟩

end ToonGo
namespace ToonGo

theorem keyLt_irrefl : ∀ a : Str, keyLt a a = false := by
  intro a
  induction a with
  | nil => rfl
  | cons c r ih =>
    rw [keyLt]
    rw [if_neg (lt_irrefl c), if_neg (lt_irrefl c)]
    exact ih

theorem keyLt_cons_inv {x y : Char} {xs ys : Str} (h : keyLt (x :: xs) (y :: ys) = true) :
    x < y ∨ (x = y ∧ keyLt xs ys = true) := by
  rw [keyLt] at h
  by_cases h1 : x < y
  · exact .inl h1
  · rw [if_neg h1] at h
    by_cases h2 : y < x
    · rw [if_pos h2] at h
      exact absurd h (by simp)
    · rw [if_neg h2] at h
      exact .inr ⟨le_antisymm (not_lt.mp h2) (not_lt.mp h1), h⟩

theorem keyLt_cons_of_lt {x y : Char} (xs ys : Str) (h : x < y) :
    keyLt (x :: xs) (y :: ys) = true := by
  rw [keyLt, if_pos h]

theorem keyLt_cons_of_eq {x y : Char} {xs ys : Str} (h : x = y)
    (h2 : keyLt xs ys = true) : keyLt (x :: xs) (y :: ys) = true := by
  subst h
  rw [keyLt, if_neg (lt_irrefl x), if_neg (lt_irrefl x)]
  exact h2

theorem keyLt_trans : ∀ a b c : Str, keyLt a b = true → keyLt b c = true →
    keyLt a c = true := by
  intro a
  induction a with
  | nil =>
    intro b c hab hbc
    cases b with
    | nil => exact absurd hab (by simp [keyLt])
    | cons y ys =>
      cases c with
      | nil => exact absurd hbc (by simp [keyLt])
      | cons z zs => rfl
  | cons x xs ih =>
    intro b c hab hbc
    cases b with
    | nil => exact absurd hab (by simp [keyLt])
    | cons y ys =>
      cases c with
      | nil => exact absurd hbc (by simp [keyLt])
      | cons z zs =>
        rcases keyLt_cons_inv hab with h1 | ⟨h1, h1'⟩
        · rcases keyLt_cons_inv hbc with h2 | ⟨h2, h2'⟩
          · exact keyLt_cons_of_lt xs zs (lt_trans h1 h2)
          · exact keyLt_cons_of_lt xs zs (h2 ▸ h1)
        · rcases keyLt_cons_inv hbc with h2 | ⟨h2, h2'⟩
          · exact keyLt_cons_of_lt xs zs (h1 ▸ h2)
          · exact keyLt_cons_of_eq (h1.trans h2) (ih ys zs h1' h2')

theorem keyLt_asymm {a b : Str} (h : keyLt a b = true) : keyLt b a = false := by
  cases hb : keyLt b a with
  | false => rfl
  | true =>
    have := keyLt_trans a b a h hb
    rw [keyLt_irrefl a] at this
    exact absurd this (by simp)

theorem keyLt_total : ∀ a b : Str, keyLt a b = true ∨ keyLt b a = true ∨ a = b := by
  intro a
  induction a with
  | nil =>
    intro b
    cases b with
    | nil => exact .inr (.inr rfl)
    | cons y ys => exact .inl rfl
  | cons x xs ih =>
    intro b
    cases b with
    | nil => exact .inr (.inl rfl)
    | cons y ys =>
      rcases lt_trichotomy x y with h | h | h
      · exact .inl (keyLt_cons_of_lt xs ys h)
      · rcases ih ys with h2 | h2 | h2
        · exact .inl (keyLt_cons_of_eq h h2)
        · exact .inr (.inl (keyLt_cons_of_eq h.symm h2))
        · exact .inr (.inr (by rw [h, h2]))
      · exact .inr (.inl (keyLt_cons_of_lt ys xs h))

theorem insSortField_perm (f : Str × Value) : ∀ l, (insSortField f l).Perm (f :: l) := by
  intro l
  induction l with
  | nil => exact List.Perm.refl _
  | cons g r ih =>
    rw [insSortField]
    by_cases h : keyLt f.1 g.1 = true
    · rw [if_pos h]
    · rw [if_neg h]
      exact (ih.cons g).trans (List.Perm.swap f g r)

theorem sortFields_perm : ∀ l, (sortFields l).Perm l := by
  intro l
  induction l with
  | nil => exact List.Perm.refl _
  | cons f r ih =>
    rw [sortFields]
    exact (insSortField_perm f (sortFields r)).trans (ih.cons f)

theorem pairwise_insSortField (f : Str × Value) :
    ∀ l, l.Pairwise (fun a b => keyLt b.1 a.1 = false) →
      (insSortField f l).Pairwise (fun a b => keyLt b.1 a.1 = false) := by
  intro l
  induction l with
  | nil =>
    intro _
    show ([f] : List (Str × Value)).Pairwise _
    simp
  | cons g r ih =>
    intro h
    rw [List.pairwise_cons] at h
    rw [insSortField]
    by_cases hfg : keyLt f.1 g.1 = true
    · rw [if_pos hfg]
      rw [List.pairwise_cons]
      constructor
      · intro x hx
        rcases List.mem_cons.mp hx with rfl | hx'
        · exact keyLt_asymm hfg
        · cases hc : keyLt x.1 f.1 with
          | false => rfl
          | true =>
            have hxg : keyLt x.1 g.1 = true := keyLt_trans _ _ _ hc hfg
            rw [h.1 x hx'] at hxg
            exact absurd hxg (by simp)
      · rw [List.pairwise_cons]
        exact h
    · rw [if_neg hfg]
      rw [List.pairwise_cons]
      constructor
      · intro x hx
        have hx' : x = f ∨ x ∈ r :=
          (List.Perm.mem_iff (insSortField_perm f r)).mp hx |> List.mem_cons.mp
        rcases hx' with rfl | hx''
        · cases hc : keyLt x.1 g.1 with
          | false => rfl
          | true => exact absurd hc hfg
        · exact h.1 x hx''
      · exact ih h.2

theorem sortFields_pairwise : ∀ l,
    (sortFields l).Pairwise (fun a b => keyLt b.1 a.1 = false) := by
  intro l
  induction l with
  | nil => simp [sortFields]
  | cons f r ih => exact pairwise_insSortField f (sortFields r) ih

theorem pairwise_strict {l : List (Str × Value)}
    (hs : l.Pairwise (fun a b => keyLt b.1 a.1 = false))
    (hn : (l.map Prod.fst).Nodup) :
    l.Pairwise (fun a b => keyLt a.1 b.1 = true) := by
  have hne : l.Pairwise (fun a b : Str × Value => a.1 ≠ b.1) := List.pairwise_map.mp hn
  refine (hs.and hne).imp ?_
  intro a b h
  rcases keyLt_total a.1 b.1 with ht | ht | ht
  · exact ht
  · rw [h.1] at ht
    exact absurd ht (by simp)
  · exact absurd ht h.2

theorem norm_hobj_cons_inv {f : Nat} {k : Str} {v : HostValue}
    {rest : List (Str × HostValue)} {out : Value}
    (h : normalizeRun (f + 1) (.hobj ((k, v) :: rest)) = .ok out) :
    ∃ nv nr, normalizeRun f v = .ok nv ∧ normalizeRun f (.hobj rest) = .ok (.vobj nr) ∧
      out = .vobj ((k, nv) :: nr) := by
  rw [show normalizeRun (f + 1) (.hobj ((k, v) :: rest)) =
    (normalizeRun f v >>= fun nv =>
      normalizeRun f (.hobj rest) >>= fun nr =>
        match nr with
        | .vobj nrf => Except.ok (.vobj ((k, nv) :: nrf))
        | _ => Except.error "model: impossible") from rfl] at h
  cases hv : normalizeRun f v with
  | error e =>
    rw [hv, exc_bind_err] at h
    exact absurd h (by simp)
  | ok nv =>
    rw [hv, exc_bind_ok] at h
    cases hr : normalizeRun f (.hobj rest) with
    | error e =>
      rw [hr, exc_bind_err] at h
      exact absurd h (by simp)
    | ok nr =>
      rw [hr, exc_bind_ok] at h
      cases nr with
      | vobj nrf =>
        refine ⟨nv, nrf, rfl, rfl, ?_⟩
        injection h with h'
        exact h'.symm
      | vnull => exact absurd h (by simp)
      | vbool b => exact absurd h (by simp)
      | vnum l => exact absurd h (by simp)
      | vstr s => exact absurd h (by simp)
      | varr l => exact absurd h (by simp)

theorem norm_hmap_inv {f : Nat} {entries : List (Str × HostValue)} {out : Value}
    (h : normalizeRun (f + 1) (.hmap entries) = .ok out) :
    ∃ nf, normalizeRun f (.hobj entries) = .ok (.vobj nf) ∧
      out = .vobj (sortFields nf) := by
  rw [show normalizeRun (f + 1) (.hmap entries) =
    (normalizeRun f (.hobj entries) >>= fun nf =>
      match nf with
      | .vobj fields => Except.ok (.vobj (sortFields fields))
      | _ => Except.error "model: impossible") from rfl] at h
  cases hr : normalizeRun f (.hobj entries) with
  | error e =>
    rw [hr, exc_bind_err] at h
    exact absurd h (by simp)
  | ok nf =>
    rw [hr, exc_bind_ok] at h
    cases nf with
    | vobj fields =>
      refine ⟨fields, rfl, ?_⟩
      injection h with h'
      exact h'.symm
    | vnull => exact absurd h (by simp)
    | vbool b => exact absurd h (by simp)
    | vnum l => exact absurd h (by simp)
    | vstr s => exact absurd h (by simp)
    | varr l => exact absurd h (by simp)

theorem normalizeRun_mono : ∀ (fuel : Nat) (h : HostValue) (v : Value),
    normalizeRun fuel h = .ok v → normalizeRun (fuel + 1) h = .ok v := by
  intro fuel
  induction fuel with
  | zero =>
    intro h v hv
    exact absurd hv (by simp [normalizeRun])
  | succ f ih =>
    intro h v hv
    cases h with
    | hnull => exact hv
    | hbool b => exact hv
    | hstr s => exact hv
    | hjsonNumber s => exact hv
    | hfloat g => exact hv
    | hint i => exact hv
    | huint u => exact hv
    | hbigInt i =>
      rw [show normalizeRun (f + 1) (.hbigInt i) =
        (if (-(2 ^ 63) ≤ i && i < 2 ^ 63) = true then normalizeRun f (.hint i)
         else .ok (.vstr (intDecimal i))) from rfl] at hv
      rw [show normalizeRun (f + 1 + 1) (.hbigInt i) =
        (if (-(2 ^ 63) ≤ i && i < 2 ^ 63) = true then normalizeRun (f + 1) (.hint i)
         else .ok (.vstr (intDecimal i))) from rfl]
      by_cases hc : (-(2 ^ 63) ≤ i && i < 2 ^ 63) = true
      · rw [if_pos hc] at hv
        rw [if_pos hc]
        exact ih (.hint i) v hv
      · rw [if_neg hc] at hv
        rw [if_neg hc]
        exact hv
    | hobj fields =>
      cases fields with
      | nil => exact hv
      | cons p rest =>
        obtain ⟨k, w⟩ := p
        obtain ⟨nv, nr, h1, h2, h3⟩ := norm_hobj_cons_inv hv
        subst h3
        rw [show normalizeRun (f + 1 + 1) (.hobj ((k, w) :: rest)) =
          (normalizeRun (f + 1) w >>= fun nv =>
            normalizeRun (f + 1) (.hobj rest) >>= fun nr =>
              match nr with
              | .vobj nrf => Except.ok (.vobj ((k, nv) :: nrf))
              | _ => Except.error "model: impossible") from rfl]
        rw [ih w nv h1, exc_bind_ok, ih (.hobj rest) (.vobj nr) h2, exc_bind_ok]
    | harr items =>
      cases items with
      | nil => exact hv
      | cons w rest =>
        rw [show normalizeRun (f + 1) (.harr (w :: rest)) =
          (normalizeRun f w >>= fun nv =>
            normalizeRun f (.harr rest) >>= fun nr =>
              match nr with
              | .varr nri => Except.ok (.varr (nv :: nri))
              | _ => Except.error "model: impossible") from rfl] at hv
        cases hw : normalizeRun f w with
        | error e =>
          rw [hw, exc_bind_err] at hv
          exact absurd hv (by simp)
        | ok nv =>
          rw [hw, exc_bind_ok] at hv
          cases hr : normalizeRun f (.harr rest) with
          | error e =>
            rw [hr, exc_bind_err] at hv
            exact absurd hv (by simp)
          | ok nr =>
            rw [hr, exc_bind_ok] at hv
            rw [show normalizeRun (f + 1 + 1) (.harr (w :: rest)) =
              (normalizeRun (f + 1) w >>= fun nv =>
                normalizeRun (f + 1) (.harr rest) >>= fun nr =>
                  match nr with
                  | .varr nri => Except.ok (.varr (nv :: nri))
                  | _ => Except.error "model: impossible") from rfl]
            rw [ih w nv hw, exc_bind_ok, ih (.harr rest) nr hr, exc_bind_ok]
            exact hv
    | hmap entries =>
      obtain ⟨nf, h1, h2⟩ := norm_hmap_inv hv
      subst h2
      rw [show normalizeRun (f + 1 + 1) (.hmap entries) =
        (normalizeRun (f + 1) (.hobj entries) >>= fun nf =>
          match nf with
          | .vobj fields => Except.ok (.vobj (sortFields fields))
          | _ => Except.error "model: impossible") from rfl]
      rw [ih (.hobj entries) (.vobj nf) h1, exc_bind_ok]

theorem normalizeRun_mono_le {fuel fuel' : Nat} (hle : fuel ≤ fuel') :
    ∀ {h : HostValue} {v : Value},
      normalizeRun fuel h = .ok v → normalizeRun fuel' h = .ok v := by
  induction fuel' with
  | zero =>
    intro h v hv
    have : fuel = 0 := by omega
    subst this
    exact hv
  | succ g ih =>
    intro h v hv
    by_cases hc : fuel = g + 1
    · subst hc
      exact hv
    · have : fuel ≤ g := by omega
      exact normalizeRun_mono g h v (ih this hv)

theorem normalizeRun_det {f g : Nat} {h : HostValue} {v w : Value}
    (hv : normalizeRun f h = .ok v) (hw : normalizeRun g h = .ok w) : v = w := by
  have h1 := normalizeRun_mono_le (Nat.le_max_left f g) hv
  have h2 := normalizeRun_mono_le (Nat.le_max_right f g) hw
  rw [h1] at h2
  exact (Except.ok.inj h2)

theorem norm_hobj_nil_inv {f : Nat} {out : Value}
    (h : normalizeRun (f + 1) (.hobj []) = .ok out) : out = .vobj [] := by
  rw [show normalizeRun (f + 1) (.hobj []) = .ok (.vobj []) from rfl] at h
  injection h with h'
  exact h'.symm

theorem norm_hobj_fuel_pos {f : Nat} {l : List (Str × HostValue)} {nl : List (Str × Value)}
    (hv : normalizeRun f (.hobj l) = .ok (.vobj nl)) :
    ∃ f', f = f' + 1 := by
  cases f with
  | zero => exact absurd hv (by simp [normalizeRun])
  | succ f' => exact ⟨f', rfl⟩

theorem norm_hobj_keys : ∀ (l : List (Str × HostValue)) (fuel : Nat)
    (nl : List (Str × Value)),
    normalizeRun (fuel + 1) (.hobj l) = .ok (.vobj nl) →
    nl.map Prod.fst = l.map Prod.fst := by
  intro l
  induction l with
  | nil =>
    intro fuel nl h
    have := norm_hobj_nil_inv h
    injection this with h'
    simp [h']
  | cons p rest ih =>
    intro fuel nl h
    obtain ⟨k, w⟩ := p
    obtain ⟨nv, nr, h1, h2, h3⟩ := norm_hobj_cons_inv h
    injection h3 with h3'
    subst h3'
    obtain ⟨f', hf⟩ := norm_hobj_fuel_pos h2
    subst hf
    have := ih f' nr h2
    simp only [List.map_cons, this]

theorem norm_hobj_perm_exists {l l' : List (Str × HostValue)} (hperm : l.Perm l') :
    ∀ (f : Nat) (nl : List (Str × Value)),
      normalizeRun (f + 1) (.hobj l) = .ok (.vobj nl) →
      ∃ (g : Nat) (nl' : List (Str × Value)),
        normalizeRun (g + 1) (.hobj l') = .ok (.vobj nl') := by
  induction hperm with
  | nil =>
    intro f nl h
    exact ⟨f, nl, h⟩
  | cons x hp ih =>
    intro f nl h
    obtain ⟨k, w⟩ := x
    obtain ⟨nv, nr, h1, h2, h3⟩ := norm_hobj_cons_inv h
    obtain ⟨f', hf⟩ := norm_hobj_fuel_pos h2
    subst hf
    obtain ⟨g, nr', hg⟩ := ih f' nr h2
    refine ⟨max (f' + 1) (g + 1) + 1, (k, nv) :: nr', ?_⟩
    rw [show normalizeRun (max (f' + 1) (g + 1) + 1 + 1) (.hobj ((k, w) :: _)) =
      (normalizeRun (max (f' + 1) (g + 1) + 1) w >>= fun nv =>
        normalizeRun (max (f' + 1) (g + 1) + 1) (.hobj _) >>= fun nr =>
          match nr with
          | .vobj nrf => Except.ok (.vobj ((k, nv) :: nrf))
          | _ => Except.error "model: impossible") from rfl]
    rw [normalizeRun_mono_le (by omega) h1, exc_bind_ok,
      normalizeRun_mono_le (by omega) hg, exc_bind_ok]
  | swap x y l =>
    intro f nl h
    obtain ⟨k1, w1⟩ := y
    obtain ⟨k2, w2⟩ := x
    obtain ⟨nv1, nr1, h1, h2, h3⟩ := norm_hobj_cons_inv h
    obtain ⟨f1, hf⟩ := norm_hobj_fuel_pos h2
    subst hf
    obtain ⟨nv2, nr2, h4, h5, h6⟩ := norm_hobj_cons_inv h2
    injection h6 with h6'
    subst h6'
    refine ⟨f1 + 2, (k2, nv2) :: (k1, nv1) :: nr2, ?_⟩
    rw [show normalizeRun (f1 + 2 + 1) (.hobj ((k2, w2) :: (k1, w1) :: l)) =
      (normalizeRun (f1 + 2) w2 >>= fun nv =>
        normalizeRun (f1 + 2) (.hobj ((k1, w1) :: l)) >>= fun nr =>
          match nr with
          | .vobj nrf => Except.ok (.vobj ((k2, nv) :: nrf))
          | _ => Except.error "model: impossible") from rfl]
    rw [normalizeRun_mono_le (by omega) h4, exc_bind_ok]
    rw [show normalizeRun (f1 + 2) (.hobj ((k1, w1) :: l)) =
      (normalizeRun (f1 + 1) w1 >>= fun nv =>
        normalizeRun (f1 + 1) (.hobj l) >>= fun nr =>
          match nr with
          | .vobj nrf => Except.ok (.vobj ((k1, nv) :: nrf))
          | _ => Except.error "model: impossible") from rfl]
    rw [normalizeRun_mono_le (by omega) h1, exc_bind_ok,
      normalizeRun_mono_le (by omega) h5, exc_bind_ok]
    rfl
  | trans hp1 hp2 ih1 ih2 =>
    intro f nl h
    obtain ⟨g, nl', hg⟩ := ih1 f nl h
    exact ih2 g nl' hg

theorem norm_hobj_perm_perm {l l' : List (Str × HostValue)} (hperm : l.Perm l') :
    ∀ (f g : Nat) (nl nl' : List (Str × Value)),
      normalizeRun (f + 1) (.hobj l) = .ok (.vobj nl) →
      normalizeRun (g + 1) (.hobj l') = .ok (.vobj nl') →
      nl.Perm nl' := by
  induction hperm with
  | nil =>
    intro f g nl nl' h h'
    have h1 := Value.vobj.inj (norm_hobj_nil_inv h)
    have h2 := Value.vobj.inj (norm_hobj_nil_inv h')
    subst h1
    subst h2
    exact List.Perm.refl _
  | cons x hp ih =>
    intro f g nl nl' h h'
    obtain ⟨k, w⟩ := x
    obtain ⟨nv, nr, h1, h2, h3⟩ := norm_hobj_cons_inv h
    obtain ⟨nv', nr', h1', h2', h3'⟩ := norm_hobj_cons_inv h'
    have e3 := Value.vobj.inj h3
    have e3' := Value.vobj.inj h3'
    subst e3
    subst e3'
    have hv := normalizeRun_det h1 h1'
    subst hv
    obtain ⟨f2, hf⟩ := norm_hobj_fuel_pos h2
    obtain ⟨g2, hg⟩ := norm_hobj_fuel_pos h2'
    subst hf
    subst hg
    exact List.Perm.cons (k, nv) (ih f2 g2 nr nr' h2 h2')
  | swap x y l =>
    intro f g nl nl' h h'
    obtain ⟨k1, w1⟩ := y
    obtain ⟨k2, w2⟩ := x
    obtain ⟨nv1, nr1, h1, h2, h3⟩ := norm_hobj_cons_inv h
    obtain ⟨f1, hf⟩ := norm_hobj_fuel_pos h2
    subst hf
    obtain ⟨nv2, nr2, h4, h5, h6⟩ := norm_hobj_cons_inv h2
    have e6 := Value.vobj.inj h6
    subst e6
    have e3 := Value.vobj.inj h3
    subst e3
    obtain ⟨nv2', nr1', h1', h2', h3'⟩ := norm_hobj_cons_inv h'
    obtain ⟨g1, hg⟩ := norm_hobj_fuel_pos h2'
    subst hg
    obtain ⟨nv1', nr2', h4', h5', h6'⟩ := norm_hobj_cons_inv h2'
    have e6' := Value.vobj.inj h6'
    subst e6'
    have e3' := Value.vobj.inj h3'
    subst e3'
    have d1 := normalizeRun_det h1 h4'
    have d2 := normalizeRun_det h4 h1'
    have e5 := Value.vobj.inj (normalizeRun_det h5 h5')
    subst d1
    subst d2
    subst e5
    exact List.Perm.swap (k2, nv2) (k1, nv1) nr2
  | trans hp1 hp2 ih1 ih2 =>
    intro f g nl nl' h h'
    obtain ⟨m, nm, hm⟩ := norm_hobj_perm_exists hp1 f nl h
    exact (ih1 f m nl nm h hm).trans (ih2 m g nm nl' hm h')

theorem sortFields_eq_of_perm {l l' : List (Str × Value)} (hp : l.Perm l')
    (hn : (l.map Prod.fst).Nodup) : sortFields l = sortFields l' := by
  haveI : IsAntisymm (Str × Value) (fun a b => keyLt a.1 b.1 = true) :=
    ⟨fun a b h1 h2 => absurd h2 (by simp [keyLt_asymm h1])⟩
  have hn' : (l'.map Prod.fst).Nodup := ((hp.map Prod.fst).nodup_iff).mp hn
  have p1 := sortFields_perm l
  have p2 := sortFields_perm l'
  have hperm : (sortFields l).Perm (sortFields l') := (p1.trans hp).trans p2.symm
  have hn1 : ((sortFields l).map Prod.fst).Nodup := ((p1.map Prod.fst).nodup_iff).mpr hn
  have hn2 : ((sortFields l').map Prod.fst).Nodup := ((p2.map Prod.fst).nodup_iff).mpr hn'
  exact List.eq_of_perm_of_sorted hperm
    (pairwise_strict (sortFields_pairwise l) hn1)
    (pairwise_strict (sortFields_pairwise l') hn2)

theorem norm_hmap_sorted {entries : List (Str × HostValue)} {f : Nat} {out : Value}
    (hn : (entries.map Prod.fst).Nodup)
    (h : normalizeRun (f + 1) (.hmap entries) = .ok out) :
    ∃ nf, normalizeRun f (.hobj entries) = .ok (.vobj nf) ∧
      out = .vobj (sortFields nf) ∧
      (sortFields nf).Pairwise (fun a b => keyLt a.1 b.1 = true) := by
  obtain ⟨nf, h1, h2⟩ := norm_hmap_inv h
  refine ⟨nf, h1, h2, ?_⟩
  obtain ⟨f2, hf⟩ := norm_hobj_fuel_pos h1
  subst hf
  have hkeys := norm_hobj_keys entries f2 nf h1
  have hnf : (nf.map Prod.fst).Nodup := by rw [hkeys]; exact hn
  have hns : ((sortFields nf).map Prod.fst).Nodup :=
    (((sortFields_perm nf).map Prod.fst).nodup_iff).mpr hnf
  exact pairwise_strict (sortFields_pairwise nf) hns

theorem norm_hmap_det {entries entries' : List (Str × HostValue)}
    (hp : entries.Perm entries') (hn : (entries.map Prod.fst).Nodup)
    {f g : Nat} {out out' : Value}
    (h : normalizeRun (f + 1) (.hmap entries) = .ok out)
    (h' : normalizeRun (g + 1) (.hmap entries') = .ok out') : out = out' := by
  obtain ⟨nf, h1, rfl⟩ := norm_hmap_inv h
  obtain ⟨nf', h1', rfl⟩ := norm_hmap_inv h'
  obtain ⟨f2, hf⟩ := norm_hobj_fuel_pos h1
  obtain ⟨g2, hg⟩ := norm_hobj_fuel_pos h1'
  subst hf
  subst hg
  have hperm := norm_hobj_perm_perm hp f2 g2 nf nf' h1 h1'
  have hkeys := norm_hobj_keys entries f2 nf h1
  have hnf : (nf.map Prod.fst).Nodup := by rw [hkeys]; exact hn
  rw [sortFields_eq_of_perm hperm hnf]

theorem encRun_eobj_cons_prim {cfg : encoderOptions} {f : Nat} {k : Str} {v : Value}
    {rest : List (Str × Value)} {depth : Nat} (hv : isPrimitive v = true) :
    encRun cfg (f + 1) (.eobj ((k, v) :: rest) depth) =
      (encodeKeyRaw k >>= fun keyLit =>
        formatPrimitive v (fmtCtxDoc cfg) >>= fun tok =>
          encRun cfg f (.eobj rest depth) >>= fun more =>
            Except.ok ((indentStr cfg depth ++ keyLit ++ ':' :: ' ' :: tok) :: more)) := by
  cases v with
  | vnull => rfl
  | vbool b => rfl
  | vstr s => rfl
  | vnum l => rfl
  | vobj o => exact absurd hv (by simp [isPrimitive])
  | varr l => exact absurd hv (by simp [isPrimitive])

theorem enc_obj_prim_order (cfg : encoderOptions) (depth : Nat) :
    ∀ (fields : List (Str × Value)) (fuel : Nat) (lines : List Str),
      fields.length < fuel →
      (∀ f ∈ fields, isPrimitive f.2 = true) →
      encRun cfg fuel (.eobj fields depth) = .ok lines →
      lines = fields.map (fun f =>
        indentStr cfg depth ++ exceptGetD (encodeKeyRaw f.1) [] ++
          ':' :: ' ' :: exceptGetD (formatPrimitive f.2 (fmtCtxDoc cfg)) []) := by
  intro fields
  induction fields with
  | nil =>
    intro fuel lines hfu _ h
    obtain ⟨f1, rfl⟩ : ∃ f1, fuel = f1 + 1 := ⟨fuel - 1, by omega⟩
    rw [show encRun cfg (f1 + 1) (.eobj [] depth) = .ok [] from rfl] at h
    have := Except.ok.inj h
    simp [this.symm]
  | cons p rest ih =>
    intro fuel lines hfu hprim h
    obtain ⟨k, v⟩ := p
    obtain ⟨f1, rfl⟩ : ∃ f1, fuel = f1 + 1 := ⟨fuel - 1, by omega⟩
    have hv : isPrimitive v = true := hprim (k, v) (List.mem_cons_self _ _)
    rw [encRun_eobj_cons_prim hv] at h
    cases hk : encodeKeyRaw k with
    | error e =>
      rw [hk, exc_bind_err] at h
      exact absurd h (by simp)
    | ok keyLit =>
      rw [hk, exc_bind_ok] at h
      cases ht : formatPrimitive v (fmtCtxDoc cfg) with
      | error e =>
        rw [ht, exc_bind_err] at h
        exact absurd h (by simp)
      | ok tok =>
        rw [ht, exc_bind_ok] at h
        cases hm : encRun cfg f1 (.eobj rest depth) with
        | error e =>
          rw [hm, exc_bind_err] at h
          exact absurd h (by simp)
        | ok more =>
          rw [hm, exc_bind_ok] at h
          have hlines := (Except.ok.inj h).symm
          have hlen : rest.length < f1 := by
            simp only [List.length_cons] at hfu
            omega
          have hrest := ih f1 more hlen
            (fun f hf' => hprim f (List.mem_cons_of_mem _ hf')) hm
          rw [hlines, List.map_cons, ← hrest, hk, ht]
          rfl

/-- C8: normalizing an ordered object preserves the key sequence exactly
(so encoded field order equals input order for any ordered object); the
encoder emits one line per field in input order for primitive-valued
fields; a generic string-keyed map normalizes to the object sorted
ascending by `keyLt` on keys; and the normalized result of a map is
independent of the iteration order of its entries, so encoding of maps is
deterministic. -/
theorem claim_C8_field_order :
    (∀ (l : List (Str × HostValue)) (fuel : Nat) (nl : List (Str × Value)),
        normalizeRun (fuel + 1) (.hobj l) = .ok (.vobj nl) →
        nl.map Prod.fst = l.map Prod.fst)
    ∧ (∀ (cfg : encoderOptions) (depth : Nat) (fields : List (Str × Value))
        (fuel : Nat) (lines : List Str),
        fields.length < fuel →
        (∀ f ∈ fields, isPrimitive f.2 = true) →
        encRun cfg fuel (.eobj fields depth) = .ok lines →
        lines = fields.map (fun f =>
          indentStr cfg depth ++ exceptGetD (encodeKeyRaw f.1) [] ++
            ':' :: ' ' :: exceptGetD (formatPrimitive f.2 (fmtCtxDoc cfg)) []))
    ∧ (∀ (entries : List (Str × HostValue)) (f : Nat) (out : Value),
        (entries.map Prod.fst).Nodup →
        normalizeRun (f + 1) (.hmap entries) = .ok out →
        ∃ nf, normalizeRun f (.hobj entries) = .ok (.vobj nf) ∧
          nf.map Prod.fst = entries.map Prod.fst ∧
          out = .vobj (sortFields nf) ∧
          (sortFields nf).Perm nf ∧
          (sortFields nf).Pairwise (fun a b => keyLt a.1 b.1 = true))
    ∧ (∀ (entries entries' : List (Str × HostValue)),
        entries.Perm entries' → (entries.map Prod.fst).Nodup →
        ∀ (f g : Nat) (out out' : Value),
          normalizeRun (f + 1) (.hmap entries) = .ok out →
          normalizeRun (g + 1) (.hmap entries') = .ok out' → out = out') := by
  refine ⟨norm_hobj_keys, enc_obj_prim_order, ?_, ?_⟩
  · intro entries f out hn h
    obtain ⟨nf, h1, h2, h3⟩ := norm_hmap_sorted hn h
    obtain ⟨f2, hf⟩ := norm_hobj_fuel_pos h1
    have hkeys : nf.map Prod.fst = entries.map Prod.fst := by
      subst hf
      exact norm_hobj_keys entries f2 nf h1
    exact ⟨nf, h1, hkeys, h2, sortFields_perm nf, h3⟩
  · intro entries entries' hp hn f g out out' h h'
    exact norm_hmap_det hp hn h h'

theorem claim_C8_witness :
    (([(['b'], Value.vbool true), (['a'], Value.vnull)] : List (Str × Value)).map Prod.fst
      = ([(['b'], HostValue.hbool true), (['a'], HostValue.hnull)]
          : List (Str × HostValue)).map Prod.fst)
    ∧ ["a: null".data]
      = ([(['a'], Value.vnull)] : List (Str × Value)).map (fun f =>
          indentStr (newEncoderConfig []) 0 ++ exceptGetD (encodeKeyRaw f.1) [] ++
            ':' :: ' ' :: exceptGetD (formatPrimitive f.2 (fmtCtxDoc (newEncoderConfig []))) [])
    ∧ Value.vobj [(['a'], Value.vnull), (['b'], Value.vbool true)]
      = Value.vobj [(['a'], Value.vnull), (['b'], Value.vbool true)] :=
  ⟨claim_C8_field_order.1
      [(['b'], HostValue.hbool true), (['a'], HostValue.hnull)] 2
      [(['b'], Value.vbool true), (['a'], Value.vnull)] (by rfl),
   claim_C8_field_order.2.1 (newEncoderConfig []) 0
      [(['a'], Value.vnull)] 2 ["a: null".data] (by decide) (by decide) (by rfl),
   claim_C8_field_order.2.2.2
      [(['b'], HostValue.hbool true), (['a'], HostValue.hnull)]
      [(['a'], HostValue.hnull), (['b'], HostValue.hbool true)]
      (List.Perm.swap (['a'], HostValue.hnull) (['b'], HostValue.hbool true) [])
      (by decide) 3 3
      (Value.vobj [(['a'], Value.vnull), (['b'], Value.vbool true)])
      (Value.vobj [(['a'], Value.vnull), (['b'], Value.vbool true)])
      (by rfl) (by rfl)⟩

end ToonGo
namespace ToonGo

/-- C2 amended: `normalizeNumberString` re-parses the numeric string and
keeps it as a string exactly when `ParseFloat` reports an error (syntax or
range); a parse to an infinity or NaN becomes null; every other parse
becomes a number literal holding the shortest round-trip rendering of the
parsed double, with no comparison of that rendering against the original
digits.  Concretely, the safe-range integer `9007199254740991` re-renders
identically, the out-of-safe-range integer `9007199254740993` silently
becomes the literal `9007199254740992`, and the over-range `1e400` keeps
its string form only because `ParseFloat` errors. -/
theorem claim_C2_amended_normalize_number_string :
    (∀ s : Str, goParseFloat s = .error () → normalizeNumberString s = .vstr s)
    ∧ (∀ (s : Str) (sg : Bool), goParseFloat s = .ok (.inf sg) →
        normalizeNumberString s = .vnull)
    ∧ (∀ s : Str, goParseFloat s = .ok .nan → normalizeNumberString s = .vnull)
    ∧ (∀ (s : Str) (v : Int), goParseFloat s = .ok (.finite v) →
        normalizeNumberString s = .vnum (goFormatFloat v))
    ∧ normalizeNumberString "9007199254740991".data = .vnum "9007199254740991".data
    ∧ normalizeNumberString "9007199254740993".data = .vnum "9007199254740992".data
    ∧ normalizeNumberString "1e400".data = .vstr "1e400".data := by
  refine ⟨?_, ?_, ?_, ?_, by rfl, by rfl, by rfl⟩
  · intro s h
    simp only [normalizeNumberString, h]
  · intro s sg h
    simp only [normalizeNumberString, h]
  · intro s h
    simp only [normalizeNumberString, h]
  · intro s v h
    simp only [normalizeNumberString, h]

theorem claim_C2_amended_witness :
    normalizeNumberString "abc".data = .vstr "abc".data
    ∧ normalizeNumberString "inf".data = .vnull
    ∧ normalizeNumberString "nan".data = .vnull
    ∧ normalizeNumberString "1.5".data = .vnum (goFormatFloat ((3 * 2 ^ 1073 : Nat) : Int)) :=
  ⟨claim_C2_amended_normalize_number_string.1 "abc".data (by rfl),
   claim_C2_amended_normalize_number_string.2.1 "inf".data false (by rfl),
   claim_C2_amended_normalize_number_string.2.2.1 "nan".data (by rfl),
   claim_C2_amended_normalize_number_string.2.2.2.1 "1.5".data ((3 * 2 ^ 1073 : Nat) : Int) (by rfl)⟩

end ToonGo
